import Mathlib

/-
Verification of the local table store of the virality repository: a miniature
single-table database (auto-incrementing ids, maintained sorted secondary
indexes, cursor pagination) built over the flat asynchronous key/value store
`AsyncStorage`.  The definitions below are a shallow embedding of the
canonical `localStorage` module (the corrected duplicate, the one that
projects `item[field]` and provides `deleteTable`): `AsyncStorage` becomes an
association list from keys to structured values, `JSON.stringify`/`JSON.parse`
become the identity on that typed representation, and every `async` function
becomes a pure state transformer; functions that can throw return `Except`.
-/

namespace Virality

/-- JavaScript runtime values that flow through the table store: item field
values, item ids and index entry values.  Booleans, objects and floating
point numbers never influence the control paths modelled here, so values are
restricted to `undefined`, strings and integer numbers. -/
inductive JVal where
  | undef : JVal
  | str : String → JVal
  | num : Int → JVal
deriving DecidableEq, Repr

/-- Decimal digit character for `d < 10`. -/
def digitChar (d : Nat) : Char := Char.ofNat (48 + d)

/-- Decimal digits of `n`, most significant first, computed with explicit
fuel so that the definition is structural and kernel-reducible
(`natToString` supplies fuel `n + 1`, which always suffices). -/
def natDigitsGo : Nat → Nat → List Char
  | 0, _ => []
  | fuel + 1, n =>
    if n < 10 then [digitChar n] else natDigitsGo fuel (n / 10) ++ [digitChar (n % 10)]

def natToString (n : Nat) : String := ⟨natDigitsGo (n + 1) n⟩

/-- Models JS number-to-string coercion (template literals, `toString`) for
the integer numbers of this model. -/
def intToString (n : Int) : String :=
  if n < 0 then "-" ++ natToString (-n).toNat else natToString n.toNat

def digitVal (c : Char) : Option Nat :=
  if c.isDigit then some (c.toNat - 48) else none

def parseDigitsAux : List Char → Nat → Option Nat
  | [], acc => some acc
  | c :: cs, acc =>
    match digitVal c with
    | some d => parseDigitsAux cs (10 * acc + d)
    | none => none

/-- Value of a non-empty all-digit character list (`none` otherwise). -/
def parseDigits : List Char → Option Nat
  | [] => none
  | c :: cs => parseDigitsAux (c :: cs) 0

/-- The WhiteSpace and LineTerminator code points JS `ToNumber` strips from
both ends of a string before reading the numeral. -/
def wsChars : List Char :=
  [' ', '\t', '\n', '\r', '\x0b', '\x0c', '\u00a0', '\u1680', '\u2000', '\u2001',
   '\u2002', '\u2003', '\u2004', '\u2005', '\u2006', '\u2007', '\u2008', '\u2009',
   '\u200a', '\u2028', '\u2029', '\u202f', '\u205f', '\u3000', '\ufeff']

def isWsChar (c : Char) : Bool := wsChars.contains c

def trimWs (cs : List Char) : List Char :=
  ((cs.dropWhile isWsChar).reverse.dropWhile isWsChar).reverse

/-- Hex digit value, also covering the smaller radixes (`none` otherwise). -/
def hexVal (c : Char) : Option Nat :=
  if c.isDigit then some (c.toNat - 48)
  else if 'a' ≤ c && c ≤ 'f' then some (c.toNat - 87)
  else if 'A' ≤ c && c ≤ 'F' then some (c.toNat - 55)
  else none

def parseRadixAux (radix : Nat) : List Char → Nat → Option Nat
  | [], acc => some acc
  | c :: cs, acc =>
    match hexVal c with
    | some d => if d < radix then parseRadixAux radix cs (radix * acc + d) else none
    | none => none

/-- Value of a non-empty digit list in the given radix (`none` otherwise). -/
def parseRadix (radix : Nat) : List Char → Option Nat
  | [] => none
  | c :: cs => parseRadixAux radix (c :: cs) 0

/-- Splits at the first exponent marker `e`/`E`. -/
def splitExp : List Char → List Char × Option (List Char)
  | [] => ([], none)
  | c :: cs =>
    if c == 'e' || c == 'E' then ([], some cs)
    else (c :: (splitExp cs).1, (splitExp cs).2)

/-- Splits at the first decimal point. -/
def splitDot : List Char → List Char × Option (List Char)
  | [] => ([], none)
  | c :: cs =>
    if c == '.' then ([], some cs)
    else (c :: (splitDot cs).1, (splitDot cs).2)

/-- The signed exponent part of a decimal literal. -/
def parseExp : List Char → Option Int
  | [] => none
  | c :: cs =>
    if c == '-' then (parseDigits cs).map (fun m : Nat => -(m : Int))
    else if c == '+' then (parseDigits cs).map (fun m : Nat => (m : Int))
    else (parseDigits (c :: cs)).map (fun m : Nat => (m : Int))

/-- Exact value of the literal `ip . fp × 10^ex` when it denotes an integer:
the concatenated digits form the mantissa, the exponent is lowered by the
fraction length, and a negative remaining scale must divide the mantissa
exactly — otherwise the literal denotes a non-integer, which no number of
this model equals. -/
def decCore (ip fp : List Char) (ex : Int) : Option Int :=
  if ip.length + fp.length = 0 then none
  else
    match parseDigitsAux (ip ++ fp) 0 with
    | none => none
    | some m =>
      let s : Int := ex - fp.length
      if 0 ≤ s then some ((m : Int) * ((10 : Int) ^ s.toNat))
      else if (10 ^ (-s).toNat : Nat) ∣ m then some ((m / 10 ^ (-s).toNat : Nat) : Int)
      else none

/-- An unsigned decimal literal: digits with optional fraction and optional
exponent, evaluated exactly. -/
def parseDec (cs : List Char) : Option Int :=
  match (splitExp cs).2 with
  | none => decCore (splitDot (splitExp cs).1).1 ((splitDot (splitExp cs).1).2.getD []) 0
  | some ecs =>
    match parseExp ecs with
    | none => none
    | some e => decCore (splitDot (splitExp cs).1).1 ((splitDot (splitExp cs).1).2.getD []) e

/-- An optionally signed decimal literal. -/
def parseSigned : List Char → Option Int
  | [] => none
  | c :: cs =>
    if c == '-' then (parseDec cs).map (fun n : Int => -n)
    else if c == '+' then parseDec cs
    else parseDec (c :: cs)

/-- The radix prefixes `0x`/`0X`, `0o`/`0O` and `0b`/`0B` of the non-decimal
numeric literals (which admit no sign). -/
def radixOf : List Char → Option (Nat × List Char)
  | c0 :: c1 :: rest =>
    if c0 == '0' then
      if c1 == 'x' || c1 == 'X' then some (16, rest)
      else if c1 == 'o' || c1 == 'O' then some (8, rest)
      else if c1 == 'b' || c1 == 'B' then some (2, rest)
      else none
    else none
  | _ => none

/-- Models JS `ToNumber` on strings, restricted to its exact integer
outcomes: whitespace is trimmed, an empty remainder is 0, and the
radix-prefixed (hex/octal/binary) and optionally signed decimal numerals
(with fraction and exponent) are evaluated exactly.  `none` stands for every
other outcome — `NaN`, an infinity or a non-integer value — none of which is
loosely equal to a number of this model.  Values carry no floating-point
rounding here, consistently with `JVal.num` being an exact integer. -/
def jsToNum? (s : String) : Option Int :=
  match trimWs s.data with
  | [] => some 0
  | c :: cs =>
    match radixOf (c :: cs) with
    | some r => (parseRadix r.1 r.2).map (fun m : Nat => (m : Int))
    | none => parseSigned (c :: cs)

/-- Models JS string coercion of a value, as in `` `${table.name}|${id}` ``. -/
def jsToString : JVal → String
  | .undef => "undefined"
  | .str s => s
  | .num n => intToString n

/-- Models JS loose equality `==` between ids, as used by the index scans in
`updateTableIndexes` and `removeItem`: same-type comparisons are strict, and
a number compares equal to a string exactly when the string converts to that
number. -/
def looseEq : JVal → JVal → Bool
  | .num a, .num b => a == b
  | .str a, .str b => a == b
  | .num a, .str b => jsToNum? b == some a
  | .str a, .num b => jsToNum? a == some b
  | .undef, .undef => true
  | _, _ => false

/-- Models JS falsiness, as in the `!item['id']` test of `setItem`. -/
def falsy : JVal → Bool
  | .undef => true
  | .str s => s == ""
  | .num n => n == 0

/-- Models `typeof value == 'number'`. -/
def isNum : JVal → Bool
  | .num _ => true
  | _ => false

/-- An item is a flat JS record: field names to values, in property order. -/
abbrev Item := List (String × JVal)

/-- Reads `item[k]`; a missing property is `undefined`. -/
def itemGet (it : Item) (k : String) : JVal :=
  (((it.find? (fun p => p.1 == k)).map Prod.snd).getD .undef : JVal)

/-- Models the property assignment `item[k] = v`: an existing property keeps
its position, a new one is appended. -/
def setField (it : Item) (k : String) (v : JVal) : Item :=
  if it.any (fun p => p.1 == k) then it.map (fun p => if p.1 == k then (k, v) else p)
  else it ++ [(k, v)]

/-- One entry of a secondary index: the item id and its projected field
value at last write (interface `LocalIndexKey`; the id is declared `string`
there but `setItem` stores auto-assigned ids as numbers, so it is a `JVal`
here). -/
structure LocalIndexKey where
  id : JVal
  value : JVal
deriving DecidableEq, Repr

/-- One secondary index (interface `LocalIndexDef`).  The optional booleans
of the source are modelled with the `!!` coercion the code applies already
performed; `values` is `none` while the source field is still `undefined`. -/
structure LocalIndexDef where
  ascending : Bool
  numerical : Bool
  values : Option (List LocalIndexKey)
deriving DecidableEq, Repr

/-- A table definition (interface `LocalTableDef`); `indexes` is a JS object
whose `for..in` enumeration follows insertion order, hence an association
list. -/
structure LocalTableDef where
  name : String
  nextId : Int
  indexes : List (String × LocalIndexDef)
deriving DecidableEq, Repr

/-- A value persisted in `AsyncStorage`.  The source stores JSON strings;
serialization round-trips the records used here faithfully, so
`JSON.stringify`/`JSON.parse` are modelled as the identity on this typed
representation. -/
inductive Stored where
  | tbl : LocalTableDef → Stored
  | item : Item → Stored
deriving DecidableEq, Repr

/-- The flat key/value store. -/
abbrev Storage := List (String × Stored)

/-- Models `AsyncStorage.getItem` (the primitive read). -/
def storeGet (st : Storage) (k : String) : Option Stored :=
  (st.find? (fun p => p.1 == k)).map Prod.snd

/-- Models `AsyncStorage.setItem`/one row of `multiSet`: rebinds `k`. -/
def storeSet (st : Storage) (k : String) (v : Stored) : Storage :=
  (k, v) :: st.filter (fun p => !(p.1 == k))

/-- Models `AsyncStorage.removeItem`. -/
def storeRemove (st : Storage) (k : String) : Storage :=
  st.filter (fun p => !(p.1 == k))

/-- Models `String.prototype.startsWith`, used by `deleteTable`. -/
def strStartsWith (s pre : String) : Bool :=
  pre.data.isPrefixOf s.data

/-- Paginated listing result (interface `StorageResults`); a `none` slot in
`items` is the `null` produced by `JSON.parse` when `multiGet` misses. -/
structure StorageResults where
  items : List (Option Stored)
  continuation : Option String
deriving DecidableEq, Repr

def tableNotFoundMsg (name : String) : String :=
  "A table named " ++ name ++ " could not be found."

def indexNotFoundMsg (indexName : String) : String :=
  "An index named " ++ indexName ++ " could not be found."

/-- Stands for the TypeError raised when the listing loop dereferences
`index.values[i].id` at a negative position. -/
def typeErrorMsg : String := "TypeError"

/-- Source `defineTable`: a no-op when a value is already stored under
`name` (the stored JSON string is never empty, so the `!table` test is
exactly a presence test); otherwise persists the fresh definition. -/
def defineTable (name : String) (indexes : Option (List (String × LocalIndexDef)))
    (st : Storage) : Storage :=
  match storeGet st name with
  | some _ => st
  | none => storeSet st name (.tbl { name := name, nextId := 1, indexes := indexes.getD [] })

/-- Source `openTable`: throws when nothing is stored under `name`, and
otherwise returns whatever `JSON.parse` yields (the TS cast is unchecked). -/
def openTable (name : String) (st : Storage) : Except String Stored :=
  match storeGet st name with
  | some v => .ok v
  | none => .error (tableNotFoundMsg name)

/-- Source `deleteTable`: collects every key equal to `name` or starting
with `name ++ "|"` and batch-removes them; skips the write when none match. -/
def deleteTable (name : String) (st : Storage) : Storage :=
  let tableKeys := (st.map Prod.fst).filter
    (fun k => k == name || strStartsWith k (name ++ "|"))
  if tableKeys.isEmpty then st
  else st.filter (fun p => !(tableKeys.contains p.1))

/-- Source `getItem`: reads key `table.name|id`; `none` is the `undefined`
returned when the key is absent. -/
def getItem (t : LocalTableDef) (id : String) (st : Storage) : Option Stored :=
  storeGet st (t.name ++ "|" ++ id)

/-- The scan of `updateTableIndexes` over existing entries: finds the first
entry whose id is loosely equal to the item id and overwrites its value when
it differs (`!==`).  Returns the new entries, the `!newEntry` flag and the
`changed` flag. -/
def updEntries (id value : JVal) : List LocalIndexKey → List LocalIndexKey × Bool × Bool
  | [] => ([], false, false)
  | e :: rest =>
    if looseEq e.id id then
      if e.value == value then (e :: rest, true, false)
      else ({ id := e.id, value := value } :: rest, true, true)
    else
      let r := updEntries id value rest
      (e :: r.1, r.2.1, r.2.2)

def numOf : JVal → Int
  | .num n => n
  | _ => 0

/-- Comparator policy of the `index.values.sort(...)` calls, as the relation
"`a` may precede `b`" (comparator result `≤ 0`).  For a numerical index the
comparator is `a.value - b.value` (resp. reversed); its operands are always
numbers because `updateTableIndexes` coerces non-numeric values to 0 before
they enter such an index, so `numOf` defaults the unreachable cases to 0.
For a string index `localeCompare` is modelled as a fixed total order on the
string values; the receiver-typing TypeError it raises on a non-string
value is `sortThrows` below, so this relation only ever orders arrays the
sort completes on. -/
def entryLEb (numerical ascending : Bool) (a b : LocalIndexKey) : Bool :=
  if numerical then
    if ascending then decide (numOf a.value ≤ numOf b.value)
    else decide (numOf b.value ≤ numOf a.value)
  else
    if ascending then decide (jsToString a.value ≤ jsToString b.value)
    else decide (jsToString b.value ≤ jsToString a.value)

def entryLE (numerical ascending : Bool) (a b : LocalIndexKey) : Prop :=
  entryLEb numerical ascending a b = true

instance (numerical ascending : Bool) : DecidableRel (entryLE numerical ascending) :=
  fun a b => inferInstanceAs (Decidable (entryLEb numerical ascending a b = true))

/-- Models `index.values.sort(comparator)`: a permutation sorted under the
comparator, which is all ECMAScript guarantees and all the code relies on. -/
def sortValues (numerical ascending : Bool) (l : List LocalIndexKey) : List LocalIndexKey :=
  l.insertionSort (entryLE numerical ascending)

/-- The value coercion of `updateTableIndexes`: a non-number entering a
numerical index becomes 0. -/
def updVal (numerical : Bool) (rawValue : JVal) : JVal :=
  if numerical && !(isNum rawValue) then .num 0 else rawValue

/-- `typeof v == 'string'` — whether a value owns `localeCompare`. -/
def isStrVal : JVal → Bool
  | .str _ => true
  | _ => false

/-- Whether `index.values.sort(comparator)` throws.  The string-index
comparator `(a.value as string).localeCompare(b.value)` is only a cast at
compile time: at run time a non-string receiver has no `localeCompare`
method, so the call raises a TypeError.  A numerical index subtracts
instead, which coerces and never throws, and an array shorter than two
entries never invokes its comparator.  Exactly which mixed-type arrays make
the receiver non-string depends on the engine's comparator call schedule,
which ECMAScript leaves unspecified; the model reads a sortable string-index
array holding any non-string value as throwing. -/
def sortThrows (numerical : Bool) (l : List LocalIndexKey) : Bool :=
  !numerical && decide (2 ≤ l.length) && l.any (fun e => !(isStrVal e.value))

/-- The updated index and `changed` flag the `updateTableIndexes` loop body
computes for one index whenever its sort completes: coerce the value if the
index is numerical, update or append the entry, and re-sort when something
changed. -/
def updateIndexOk (idx : LocalIndexDef) (id rawValue : JVal) : LocalIndexDef × Bool :=
  let value := updVal idx.numerical rawValue
  let r := match idx.values with
    | some vs => updEntries id value vs
    | none => ([], false, false)
  let vs2 := if r.2.1 then r.1 else r.1 ++ [{ id := id, value := value }]
  let changed := if r.2.1 then r.2.2 else true
  if changed then
    ({ idx with values := some (sortValues idx.numerical idx.ascending vs2) }, true)
  else ({ idx with values := some vs2 }, false)

/-- Body of the `updateTableIndexes` loop for one index: the sort runs only
when something changed, and it raises a TypeError when the string-index
comparator meets a non-string receiver (`sortThrows`); otherwise the loop
body yields `updateIndexOk`. -/
def updateIndex (idx : LocalIndexDef) (id rawValue : JVal) :
    Except String (LocalIndexDef × Bool) :=
  let value := updVal idx.numerical rawValue
  let r := match idx.values with
    | some vs => updEntries id value vs
    | none => ([], false, false)
  let vs2 := if r.2.1 then r.1 else r.1 ++ [{ id := id, value := value }]
  let changed := if r.2.1 then r.2.2 else true
  if changed && sortThrows idx.numerical vs2 then .error typeErrorMsg
  else .ok (updateIndexOk idx id rawValue)

def updateIndexesGo (item : Item) :
    List (String × LocalIndexDef) → Except String (List (String × LocalIndexDef) × Bool)
  | [] => .ok ([], false)
  | (nm, idx) :: rest =>
    match updateIndex idx (itemGet item "id") (itemGet item nm) with
    | .error e => .error e
    | .ok r =>
      match updateIndexesGo item rest with
      | .error e => .error e
      | .ok q => .ok ((nm, r.1) :: q.1, r.2 || q.2)

/-- Source `updateTableIndexes`: updates every index of the table for the
(identified) item; returns the updated table and whether any index changed,
or propagates the first index's comparator TypeError. -/
def updateTableIndexes (t : LocalTableDef) (item : Item) :
    Except String (LocalTableDef × Bool) :=
  match updateIndexesGo item t.indexes with
  | .error e => .error e
  | .ok r => .ok ({ t with indexes := r.1 }, r.2)

/-- Source `setItem`: assigns `nextId` when the id field is falsy (writing it
into the item and bumping the counter), runs index maintenance, then batch
writes the item under `name|id` and, when dirty, the table definition under
`name`.  A TypeError raised by a string-index sort propagates before the
batched write, so a rejected call stores nothing; the in-memory handle it
leaves behind is implementation-defined (ECMAScript does not specify the
contents of an array whose sort was aborted by its comparator), so the
error result carries the message alone.  On success, returns the updated
in-memory table, the (mutated) item and the new storage. -/
def setItem (t : LocalTableDef) (item0 : Item) (st : Storage) :
    Except String (LocalTableDef × Item × Storage) :=
  let assign := falsy (itemGet item0 "id")
  let item := if assign then setField item0 "id" (.num t.nextId) else item0
  let t1 := if assign then { t with nextId := t.nextId + 1 } else t
  match updateTableIndexes t1 item with
  | .error e => .error e
  | .ok r =>
    let dirty := assign || r.2
    let key := t.name ++ "|" ++ jsToString (itemGet item "id")
    let st1 := storeSet st key (.item item)
    let st2 := if dirty then storeSet st1 t.name (.tbl r.1) else st1
    .ok (r.1, item, st2)

/-- The splice scan of `removeItem` on one index: removes the first entry
whose id is loosely equal to the id string, reporting whether one was. -/
def removeOnce (id : String) : List LocalIndexKey → List LocalIndexKey × Bool
  | [] => ([], false)
  | e :: rest =>
    if looseEq e.id (.str id) then (rest, true)
    else
      let r := removeOnce id rest
      (e :: r.1, r.2)

/-- The `removeItem` treatment of one index: splice out the first loose
match when `values` is an array, otherwise leave the index alone. -/
def removeIdxOne (id : String) (idx : LocalIndexDef) : LocalIndexDef × Bool :=
  match idx.values with
  | some vs => ({ idx with values := some (removeOnce id vs).1 }, (removeOnce id vs).2)
  | none => (idx, false)

def removeIdxGo (id : String) :
    List (String × LocalIndexDef) → List (String × LocalIndexDef) × Bool
  | [] => ([], false)
  | (nm, idx) :: rest =>
    let r := removeIdxOne id idx
    let q := removeIdxGo id rest
    ((nm, r.1) :: q.1, r.2 || q.2)

/-- Source `removeItem`: drops the id from every index (first loose match in
each), persists the definition when anything changed, then deletes the item
key; returns the updated in-memory table and the new storage. -/
def removeItem (t : LocalTableDef) (id : String) (st : Storage) :
    LocalTableDef × Storage :=
  let r := removeIdxGo id t.indexes
  let t1 := { t with indexes := r.1 }
  let st1 := if r.2 then storeSet st t.name (.tbl t1) else st
  (t1, storeRemove st1 (t.name ++ "|" ++ id))

/-- JS object property lookup `table.indexes[indexName]`. -/
def lookupIdx (idxs : List (String × LocalIndexDef)) (nm : String) : Option LocalIndexDef :=
  (idxs.find? (fun p => p.1 == nm)).map Prod.snd

/-- Models `parseInt` on the strings relevant here: an optional sign followed
by leading decimal digits; whitespace skipping, radix prefixes and digit
tails after non-digits are not modelled.  `none` stands for NaN. -/
def jsParseInt (s : String) : Option Int :=
  match s.data with
  | [] => none
  | c :: cs =>
    if c == '-' then (parseDigits (cs.takeWhile Char.isDigit)).map (fun m : Nat => -(m : Int))
    else if c == '+' then (parseDigits (cs.takeWhile Char.isDigit)).map (fun m : Nat => (m : Int))
    else (parseDigits ((c :: cs).takeWhile Char.isDigit)).map (fun m : Nat => (m : Int))

/-- The key-collecting `while` loop of `listItems`, iterated structurally on
the remaining `count` (`count.toNat` iterations at most): collects keys while
`i < index.values.length && count > 0`, returning the keys and the final `i`.
`none` models the TypeError thrown by `index.values[i].id` when `i` is
negative (JS indexing yields `undefined` there). -/
def fetchGo (tname : String) (vs : List LocalIndexKey) :
    Nat → Int → Option (List String × Int)
  | 0, i => some ([], i)
  | c + 1, i =>
    if i < (vs.length : Int) then
      if h : 0 ≤ i ∧ i.toNat < vs.length then
        match fetchGo tname vs c (i + 1) with
        | some r => some ((tname ++ "|" ++ jsToString (vs.get ⟨i.toNat, h.2⟩).id) :: r.1, r.2)
        | none => none
      else none
    else some ([], i)

/-- Source `listItems`: resolves the start offset from the continuation
token (a falsy token, absent or empty, meaning offset 0), throws when the
index is unknown, collects up to `count` keys from the offset, batch-reads
them, and returns the page together with the next offset as token when
entries remain. -/
def listItems (t : LocalTableDef) (indexName : String) (count : Int)
    (continuation : Option String) (st : Storage) : Except String StorageResults :=
  let startIndex? : Option Int :=
    match continuation with
    | none => some 0
    | some s => if s == "" then some 0 else jsParseInt s
  match lookupIdx t.indexes indexName with
  | none => .error (indexNotFoundMsg indexName)
  | some idx =>
    match idx.values with
    | none => .ok { items := [], continuation := none }
    | some vs =>
      match startIndex? with
      | none => .ok { items := [], continuation := none }
      | some startIndex =>
        if startIndex < (vs.length : Int) then
          match fetchGo t.name vs count.toNat startIndex with
          | none => .error typeErrorMsg
          | some r =>
            .ok { items := r.1.map (fun k => storeGet st k),
                  continuation :=
                    if r.2 < (vs.length : Int) then some (intToString r.2) else none }
        else .ok { items := [], continuation := none }

/-- A client paging through `listItems` with a fixed page size, threading
each continuation token into the next call, stopping when a page carries no
token (with enough fuel to reach that page). -/
def paginate (t : LocalTableDef) (indexName : String) (count : Int) (st : Storage) :
    Nat → Option String → List StorageResults
  | 0, _ => []
  | fuel + 1, cont =>
    match listItems t indexName count cont st with
    | .error _ => []
    | .ok r =>
      match r.continuation with
      | none => [r]
      | some c => r :: paginate t indexName count st fuel (some c)

/-- One mutating call against an open table handle. -/
inductive Op where
  | set : Item → Op
  | remove : String → Op
deriving DecidableEq, Repr

def applyOp : LocalTableDef × Storage → Op → Except String (LocalTableDef × Storage)
  | (t, st), .set item =>
    match setItem t item st with
    | .error e => .error e
    | .ok r => .ok (r.1, r.2.2)
  | (t, st), .remove id => .ok (removeItem t id st)

/-- A sequence of `setItem`/`removeItem` calls against one in-memory handle,
each persisting through the shared storage, as the host application does;
the first rejected call aborts the sequence. -/
def runOps (t : LocalTableDef) (st : Storage) : List Op → Except String (LocalTableDef × Storage)
  | [] => .ok (t, st)
  | op :: rest =>
    match applyOp (t, st) op with
    | .error e => .error e
    | .ok s => runOps s.1 s.2 rest

/-- `setItem` applied to each item in turn, also collecting the mutated
items handed back to the caller (the source mutates the caller's object);
the first rejected call aborts the sequence. -/
def runSets : LocalTableDef → Storage → List Item →
    Except String (LocalTableDef × Storage × List Item)
  | t, st, [] => .ok (t, st, [])
  | t, st, it :: rest =>
    match setItem t it st with
    | .error e => .error e
    | .ok r =>
      match runSets r.1 r.2.2 rest with
      | .error e => .error e
      | .ok q => .ok (q.1, q.2.1, r.2.1 :: q.2.2)

/-- The id string `s` names a live item of table `tname` when the storage
key `tname|s` holds a value. -/
def isLive (tname : String) (st : Storage) (s : String) : Bool :=
  (storeGet st (tname ++ "|" ++ s)).isSome

/-- The ids of the entries of an index, rendered as the strings from which
their storage keys are built. -/
def entryIds (vs : List LocalIndexKey) : List String :=
  vs.map (fun e => jsToString e.id)

/-- The property claimed for one index: `values` sorted consistently with
the `(numerical, ascending)` policy, and the entry ids enumerating the ids
of the live items of the table exactly once each, no others. -/
def IndexClaimOK (tname : String) (st : Storage) (idx : LocalIndexDef) : Prop :=
  List.Sorted (entryLE idx.numerical idx.ascending) (idx.values.getD []) ∧
  (entryIds (idx.values.getD [])).Nodup ∧
  ∀ s : String, isLive tname st s = true ↔ s ∈ entryIds (idx.values.getD [])

/-- The index ordering invariant, for every index of the table. -/
def TableClaimOK (t : LocalTableDef) (st : Storage) : Prop :=
  ∀ p ∈ t.indexes, IndexClaimOK t.name st p.2

/-- An id is loose-equality-canonical when `==` against any other such id
agrees with equality of their string renderings: numbers always are; a
string is unless it is a non-canonical numeral — `"01"`, `"+5"`, `"1e2"`,
`"1.0"`, `"0x10"` or `" 1"`, each `==`-equal to a number that renders
differently. -/
def goodIdb : JVal → Bool
  | .num _ => true
  | .str s =>
    match jsToNum? s with
    | none => true
    | some n => intToString n == s
  | .undef => false

/-- Restriction on an operation: any caller-supplied id it carries is
loose-equality-canonical (auto-assigned ids, taken when the id field is
falsy, are numbers and always are). -/
def GoodOp : Op → Prop
  | .set item => falsy (itemGet item "id") = true ∨ goodIdb (itemGet item "id") = true
  | .remove id => goodIdb (.str id) = true

/-- Induction invariant for the ordering claim: the claimed per-index
property together with canonicity of the ids held in the index. -/
def IndexInv (tname : String) (st : Storage) (idx : LocalIndexDef) : Prop :=
  IndexClaimOK tname st idx ∧ ∀ e ∈ idx.values.getD [], goodIdb e.id = true

def TableInv (t : LocalTableDef) (st : Storage) : Prop :=
  ∀ p ∈ t.indexes, IndexInv t.name st p.2

/-! Basic facts about the decimal rendering and parsing model. -/

theorem digitVal_digitChar {d : Nat} (h : d < 10) : digitVal (digitChar d) = some d := by
  interval_cases d <;> decide

theorem isDigit_digitChar {d : Nat} (h : d < 10) : (digitChar d).isDigit = true := by
  interval_cases d <;> decide

theorem parseDigitsAux_append (l : List Char) (c : Char) (acc : Nat) :
    parseDigitsAux (l ++ [c]) acc =
      (parseDigitsAux l acc).bind (fun v => (digitVal c).map (fun d => 10 * v + d)) := by
  induction l generalizing acc with
  | nil =>
    simp only [List.nil_append, parseDigitsAux]
    cases digitVal c <;> simp [parseDigitsAux]
  | cons c' l ih =>
    simp only [List.cons_append, parseDigitsAux]
    cases digitVal c' <;> simp [ih]

theorem natDigitsGo_ne_nil {fuel n : Nat} (h : 0 < fuel) : natDigitsGo fuel n ≠ [] := by
  cases fuel with
  | zero => omega
  | succ fuel => by_cases h10 : n < 10 <;> simp [natDigitsGo, h10]

theorem natDigitsGo_digits :
    ∀ fuel n : Nat, ∀ c ∈ natDigitsGo fuel n, c.isDigit = true := by
  intro fuel
  induction fuel with
  | zero => intro n c hc; simp [natDigitsGo] at hc
  | succ fuel ih =>
    intro n c hc
    by_cases h10 : n < 10
    · simp [natDigitsGo, h10] at hc
      subst hc; exact isDigit_digitChar h10
    · simp [natDigitsGo, h10] at hc
      rcases hc with hc | hc
      · exact ih _ _ hc
      · subst hc; exact isDigit_digitChar (Nat.mod_lt _ (by omega))

theorem parseDigits_eq_aux {l : List Char} (h : l ≠ []) : parseDigits l = parseDigitsAux l 0 := by
  cases l with
  | nil => exact absurd rfl h
  | cons c cs => rfl

theorem parseDigits_natDigitsGo :
    ∀ fuel n : Nat, n < fuel → parseDigits (natDigitsGo fuel n) = some n := by
  intro fuel
  induction fuel with
  | zero => intro n h; omega
  | succ fuel ih =>
    intro n h
    by_cases h10 : n < 10
    · simp [natDigitsGo, h10, parseDigits, parseDigitsAux, digitVal_digitChar h10]
    · have hn0 : 0 < n := by omega
      have hdiv : n / 10 < fuel := by
        have := Nat.div_lt_self hn0 (by omega : 1 < 10)
        omega
      have hfuel : 0 < fuel := by omega
      have hne := natDigitsGo_ne_nil (n := n / 10) hfuel
      rw [natDigitsGo, if_neg h10, parseDigits_eq_aux (by simp),
        parseDigitsAux_append, ← parseDigits_eq_aux hne, ih _ hdiv]
      simp [digitVal_digitChar (Nat.mod_lt _ (by omega : 0 < 10)), Nat.div_add_mod]

theorem natToString_data (n : Nat) : (natToString n).data = natDigitsGo (n + 1) n := rfl

theorem parseDigits_natToString (n : Nat) : parseDigits (natToString n).data = some n :=
  parseDigits_natDigitsGo _ _ (Nat.lt_succ_self n)

theorem natToString_shape (n : Nat) :
    ∃ c cs, (natToString n).data = c :: cs ∧ c.isDigit = true := by
  rcases hd : (natToString n).data with _ | ⟨c, cs⟩
  · exact absurd hd (natDigitsGo_ne_nil (Nat.succ_pos n))
  · refine ⟨c, cs, rfl, ?_⟩
    have : c ∈ (natToString n).data := by rw [hd]; exact List.mem_cons_self c cs
    exact natDigitsGo_digits _ _ c this

theorem natToString_all_digits (n : Nat) :
    ∀ c ∈ (natToString n).data, c.isDigit = true :=
  fun c hc => natDigitsGo_digits _ _ c hc

theorem not_beq_of_isDigit {c d : Char} (h : c.isDigit = true) (hd : d.isDigit = false) :
    (c == d) = false := by
  cases hb : c == d
  · rfl
  · rw [beq_iff_eq] at hb
    subst hb
    rw [h] at hd
    exact Bool.noConfusion hd

theorem not_ws_of_isDigit {c : Char} (h : c.isDigit = true) : isWsChar c = false := by
  cases hw : isWsChar c
  · rfl
  · exfalso
    have hw2 : wsChars.contains c = true := hw
    rcases List.contains_iff_exists_mem_beq.mp hw2 with ⟨d, hdm, hdb⟩
    rw [beq_iff_eq] at hdb
    rw [← hdb] at hdm
    have hall : ∀ x ∈ wsChars, x.isDigit = false := by decide
    rw [hall c hdm] at h
    exact Bool.noConfusion h

theorem dropWhile_eq_self_of (p : Char → Bool) (cs : List Char)
    (h : ∀ c ∈ cs, p c = false) : cs.dropWhile p = cs := by
  cases cs with
  | nil => rfl
  | cons c cs =>
    rw [List.dropWhile_cons, h c (List.mem_cons_self c cs)]
    simp

theorem trimWs_eq_self (cs : List Char) (h : ∀ c ∈ cs, isWsChar c = false) :
    trimWs cs = cs := by
  unfold trimWs
  rw [dropWhile_eq_self_of _ _ h,
    dropWhile_eq_self_of _ _ (fun c hc => h c (List.mem_reverse.mp hc)),
    List.reverse_reverse]

theorem splitExp_all_digits (cs : List Char) (h : ∀ c ∈ cs, c.isDigit = true) :
    splitExp cs = (cs, none) := by
  induction cs with
  | nil => rfl
  | cons c cs ih =>
    have hc := h c (List.mem_cons_self c cs)
    simp [splitExp, not_beq_of_isDigit hc (by decide : ('e' : Char).isDigit = false),
      not_beq_of_isDigit hc (by decide : ('E' : Char).isDigit = false),
      ih (fun x hx => h x (List.mem_cons_of_mem c hx))]

theorem splitDot_all_digits (cs : List Char) (h : ∀ c ∈ cs, c.isDigit = true) :
    splitDot cs = (cs, none) := by
  induction cs with
  | nil => rfl
  | cons c cs ih =>
    have hc := h c (List.mem_cons_self c cs)
    simp [splitDot, not_beq_of_isDigit hc (by decide : ('.' : Char).isDigit = false),
      ih (fun x hx => h x (List.mem_cons_of_mem c hx))]

theorem radixOf_all_digits (cs : List Char) (h : ∀ c ∈ cs, c.isDigit = true) :
    radixOf cs = none := by
  match cs with
  | [] => rfl
  | [c] => rfl
  | c0 :: c1 :: rest =>
    have hc1 := h c1 (List.mem_cons_of_mem c0 (List.mem_cons_self c1 rest))
    cases hb : c0 == '0'
    · simp [radixOf, hb]
    · simp [radixOf, hb,
        not_beq_of_isDigit hc1 (by decide : ('x' : Char).isDigit = false),
        not_beq_of_isDigit hc1 (by decide : ('X' : Char).isDigit = false),
        not_beq_of_isDigit hc1 (by decide : ('o' : Char).isDigit = false),
        not_beq_of_isDigit hc1 (by decide : ('O' : Char).isDigit = false),
        not_beq_of_isDigit hc1 (by decide : ('b' : Char).isDigit = false),
        not_beq_of_isDigit hc1 (by decide : ('B' : Char).isDigit = false)]

theorem decCore_digits {cs : List Char} (hne : cs ≠ [])
    (h : parseDigits cs = some m) : decCore cs [] 0 = some (m : Int) := by
  unfold decCore
  rw [if_neg (by cases cs with | nil => exact absurd rfl hne | cons c cs => simp),
    List.append_nil, ← parseDigits_eq_aux hne, h]
  norm_num

theorem parseDec_digits {cs : List Char} (hne : cs ≠ [])
    (h : ∀ c ∈ cs, c.isDigit = true) (hm : parseDigits cs = some m) :
    parseDec cs = some (m : Int) := by
  have hse := splitExp_all_digits cs h
  have hsd := splitDot_all_digits cs h
  unfold parseDec
  rw [hse]
  simp only [Option.getD_none]
  rw [hsd]
  exact decCore_digits hne hm

theorem jsToNum?_intToString (n : Int) : jsToNum? (intToString n) = some n := by
  by_cases hn : n < 0
  · have hd : (intToString n).data = '-' :: (natToString (-n).toNat).data := by
      rw [intToString, if_pos hn, String.data_append]
      rfl
    have hdig := natToString_all_digits (-n).toNat
    have hne : (natToString (-n).toNat).data ≠ [] := by
      obtain ⟨c, cs, hc, -⟩ := natToString_shape (-n).toNat
      rw [hc]
      simp
    have htrim : trimWs (intToString n).data = '-' :: (natToString (-n).toNat).data := by
      rw [hd]
      refine trimWs_eq_self _ ?_
      intro x hx
      rcases List.mem_cons.mp hx with rfl | hx
      · decide
      · exact not_ws_of_isDigit (hdig x hx)
    have hradix : radixOf ('-' :: (natToString (-n).toNat).data) = none := by
      rcases hdd : (natToString (-n).toNat).data with _ | ⟨c, cs⟩
      · exact absurd hdd hne
      · simp [radixOf]
    unfold jsToNum?
    rw [htrim]
    simp only [hradix]
    show parseSigned ('-' :: (natToString (-n).toNat).data) = some n
    rw [parseSigned]
    simp only [beq_self_eq_true, if_true]
    rw [parseDec_digits hne hdig (parseDigits_natToString _)]
    simp only [Option.map_some', Option.some_inj]
    omega
  · have hd0 : intToString n = natToString n.toNat := by rw [intToString, if_neg hn]
    have hdig := natToString_all_digits n.toNat
    obtain ⟨c, cs, hd, hc⟩ := natToString_shape n.toNat
    have hne : (natToString n.toNat).data ≠ [] := by rw [hd]; simp
    have htrim : trimWs (intToString n).data = (natToString n.toNat).data := by
      rw [hd0]
      exact trimWs_eq_self _ (fun x hx => not_ws_of_isDigit (hdig x hx))
    have hcs : ∀ x ∈ c :: cs, x.isDigit = true := by rw [← hd]; exact hdig
    unfold jsToNum?
    rw [htrim, hd]
    simp only [radixOf_all_digits (c :: cs) hcs]
    show parseSigned (c :: cs) = some n
    rw [parseSigned,
      not_beq_of_isDigit hc (by decide : ('-' : Char).isDigit = false),
      not_beq_of_isDigit hc (by decide : ('+' : Char).isDigit = false)]
    simp only [Bool.false_eq_true, if_false]
    rw [← hd, parseDec_digits hne hdig (parseDigits_natToString _)]
    simp only [Option.some_inj]
    omega

theorem intToString_inj {a b : Int} (h : intToString a = intToString b) : a = b := by
  have ha := jsToNum?_intToString a
  rw [h, jsToNum?_intToString b] at ha
  exact (Option.some_inj.mp ha).symm

theorem intToString_ne_empty (n : Int) : intToString n ≠ "" := by
  intro h
  have hd := congrArg String.data h
  have hmt : ("" : String).data = [] := rfl
  rw [hmt] at hd
  by_cases hn : n < 0
  · have hsh : (intToString n).data = '-' :: (natToString (-n).toNat).data := by
      rw [intToString, if_pos hn, String.data_append]
      rfl
    rw [hsh] at hd
    exact List.noConfusion hd
  · have hd0 : intToString n = natToString n.toNat := by rw [intToString, if_neg hn]
    obtain ⟨c, cs, hcc, -⟩ := natToString_shape n.toNat
    rw [hd0, hcc] at hd
    exact List.noConfusion hd

theorem jsParseInt_intToString (n : Int) : jsParseInt (intToString n) = some n := by
  by_cases hn : n < 0
  · have hd : (intToString n).data = '-' :: (natToString (-n).toNat).data := by
      rw [intToString, if_pos hn, String.data_append]
      rfl
    unfold jsParseInt
    rw [hd]
    have htw : ((natToString (-n).toNat).data).takeWhile Char.isDigit
        = (natToString (-n).toNat).data :=
      List.takeWhile_eq_self_iff.mpr (natToString_all_digits _)
    simp only [beq_self_eq_true, if_pos, htw, parseDigits_natToString, Option.map_some',
      Option.some_inj]
    omega
  · have hd0 : intToString n = natToString n.toNat := by rw [intToString, if_neg hn]
    obtain ⟨c, cs, hd, hc⟩ := natToString_shape n.toNat
    have hcm : c ≠ '-' := by intro h; rw [h] at hc; simp at hc
    have hcp : c ≠ '+' := by intro h; rw [h] at hc; simp at hc
    unfold jsParseInt
    rw [hd0, hd]
    have htw : List.takeWhile Char.isDigit (natToString n.toNat).data
        = (natToString n.toNat).data :=
      List.takeWhile_eq_self_iff.mpr (natToString_all_digits _)
    simp only [beq_iff_eq, if_neg hcm, if_neg hcp, ← hd, htw, parseDigits_natToString,
      Option.map_some', Option.some_inj]
    omega

/-! Loose equality agrees with equality of string renderings on canonical ids. -/

theorem looseEq_iff_render {a b : JVal} (ha : goodIdb a = true) (hb : goodIdb b = true) :
    looseEq a b = true ↔ jsToString a = jsToString b := by
  cases a with
  | undef => simp [goodIdb] at ha
  | str s =>
    cases b with
    | undef => simp [goodIdb] at hb
    | str s' => simp [looseEq, jsToString]
    | num y =>
      simp only [goodIdb] at ha
      rcases hs : jsToNum? s with _ | n
      · rw [hs] at ha
        simp only [looseEq, jsToString, hs]
        constructor
        · intro h; simp at h
        · intro h
          rw [h, jsToNum?_intToString] at hs
          exact absurd hs (by simp)
      · rw [hs] at ha
        simp only [beq_iff_eq] at ha
        simp only [looseEq, jsToString, hs, beq_iff_eq, Option.some_inj]
        constructor
        · intro h; rw [← h, ← ha]
        · intro h; exact intToString_inj (ha.trans h)
  | num x =>
    cases b with
    | undef => simp [goodIdb] at hb
    | num y =>
      simp only [looseEq, jsToString, beq_iff_eq]
      exact ⟨fun h => by rw [h], intToString_inj⟩
    | str s =>
      simp only [goodIdb] at hb
      rcases hs : jsToNum? s with _ | n
      · rw [hs] at hb
        simp only [looseEq, jsToString, hs]
        constructor
        · intro h; simp at h
        · intro h
          rw [← h, jsToNum?_intToString] at hs
          exact absurd hs (by simp)
      · rw [hs] at hb
        simp only [beq_iff_eq] at hb
        simp only [looseEq, jsToString, hs, beq_iff_eq, Option.some_inj]
        constructor
        · intro h; rw [← h]; exact hb
        · intro h; exact intToString_inj (hb.trans h.symm)

/-! Storage primitive lemmas. -/

theorem find?_key_filter (st : Storage) (k k' : String) (h : k' ≠ k) :
    (st.filter (fun p => !(p.1 == k))).find? (fun p => p.1 == k')
      = st.find? (fun p => p.1 == k') := by
  induction st with
  | nil => rfl
  | cons a st ih =>
    by_cases ha : a.1 = k
    · have h1 : (a.1 == k) = true := by simp [ha]
      have h2 : (a.1 == k') = false := by simp [ha, Ne.symm h]
      simp [List.filter_cons, h1, List.find?_cons, h2, ih]
    · have h1 : (a.1 == k) = false := by simp [ha]
      by_cases hk' : a.1 = k'
      · have h2 : (a.1 == k') = true := by simp [hk']
        simp [List.filter_cons, h1, List.find?_cons, h2]
      · have h2 : (a.1 == k') = false := by simp [hk']
        simp [List.filter_cons, h1, List.find?_cons, h2, ih]

theorem storeGet_storeSet (st : Storage) (k : String) (v : Stored) (k' : String) :
    storeGet (storeSet st k v) k' = if k' = k then some v else storeGet st k' := by
  unfold storeGet storeSet
  by_cases h : k' = k
  · subst h
    simp [List.find?_cons]
  · have h2 : (k == k') = false := by simp [Ne.symm h]
    simp only [List.find?_cons, h2, if_neg h]
    rw [find?_key_filter st k k' h]

theorem storeGet_storeRemove (st : Storage) (k : String) (k' : String) :
    storeGet (storeRemove st k) k' = if k' = k then none else storeGet st k' := by
  unfold storeGet storeRemove
  by_cases h : k' = k
  · subst h
    rw [if_pos rfl]
    have : (st.filter (fun p => !(p.1 == k'))).find? (fun p => p.1 == k') = none := by
      rw [List.find?_eq_none]
      intro x hx
      simp at hx ⊢
      exact hx.2
    rw [this]
    rfl
  · rw [if_neg h, find?_key_filter st k k' h]

theorem itemKey_ne_name (name s : String) : name ++ "|" ++ s ≠ name := by
  intro h
  have h2 := congrArg String.length h
  rw [String.length_append, String.length_append] at h2
  have : ("|" : String).length = 1 := rfl
  omega

theorem itemKey_inj {name s s' : String} :
    name ++ "|" ++ s = name ++ "|" ++ s' ↔ s = s' := by
  constructor
  · intro h
    have h2 : (name ++ "|" ++ s).data = (name ++ "|" ++ s').data := by rw [h]
    rw [String.data_append, String.data_append, String.data_append, String.data_append] at h2
    exact String.ext (List.append_cancel_left h2)
  · intro h; rw [h]

/-! The sort model produces sorted permutations. -/

theorem entryLE_total (numerical ascending : Bool) :
    ∀ x y, entryLE numerical ascending x y ∨ entryLE numerical ascending y x := by
  intro x y
  unfold entryLE entryLEb
  cases numerical <;> cases ascending <;> simp <;> [exact le_total _ _; exact le_total _ _;
    exact le_total _ _; exact le_total _ _]

theorem entryLE_trans (numerical ascending : Bool) :
    ∀ x y z, entryLE numerical ascending x y → entryLE numerical ascending y z →
      entryLE numerical ascending x z := by
  intro x y z
  unfold entryLE entryLEb
  cases numerical <;> cases ascending <;> simp <;> intro h1 h2
  · exact le_trans h2 h1
  · exact le_trans h1 h2
  · omega
  · omega

theorem sortValues_sorted (numerical ascending : Bool) (l : List LocalIndexKey) :
    List.Sorted (entryLE numerical ascending) (sortValues numerical ascending l) := by
  haveI : IsTotal LocalIndexKey (entryLE numerical ascending) := ⟨entryLE_total _ _⟩
  haveI : IsTrans LocalIndexKey (entryLE numerical ascending) :=
    ⟨fun x y z => entryLE_trans numerical ascending x y z⟩
  exact List.sorted_insertionSort _ _

theorem sortValues_perm (numerical ascending : Bool) (l : List LocalIndexKey) :
    (sortValues numerical ascending l).Perm l :=
  List.perm_insertionSort _ _

/-! Small facts about items and the table operations. -/

theorem find?_map_replace (k : String) (v : JVal) :
    ∀ it : Item, it.any (fun p => p.1 == k) = true →
      (it.map (fun p => if p.1 == k then (k, v) else p)).find? (fun p => p.1 == k)
        = some (k, v) := by
  intro it
  induction it with
  | nil => intro h; simp at h
  | cons a it ih =>
    intro h
    rw [List.map_cons]
    by_cases ha : a.1 = k
    · rw [if_pos (by simp [ha] : (a.1 == k) = true)]
      exact List.find?_cons_of_pos _ (by simp)
    · rw [if_neg (by simp [ha] : ¬((a.1 == k) = true))]
      rw [List.find?_cons_of_neg _ (by simp [ha])]
      apply ih
      rcases List.any_eq_true.mp h with ⟨x, hx, hpx⟩
      rcases List.mem_cons.mp hx with rfl | hx2
      · rw [show (x.1 == k) = false by simp [ha]] at hpx
        exact Bool.noConfusion hpx
      · exact List.any_eq_true.mpr ⟨x, hx2, hpx⟩

theorem itemGet_setField (it : Item) (k : String) (v : JVal) :
    itemGet (setField it k v) k = v := by
  unfold setField itemGet
  by_cases h : it.any (fun p => p.1 == k)
  · rw [if_pos h, find?_map_replace k v it h]
    rfl
  · rw [if_neg h]
    have hn : it.find? (fun p => p.1 == k) = none := by
      rw [List.find?_eq_none]
      intro x hx hpx
      exact h (List.any_eq_true.mpr ⟨x, hx, hpx⟩)
    rw [List.find?_append, hn, List.find?_cons_of_pos _ (by simp)]
    rfl

theorem updateTableIndexes_name (t : LocalTableDef) (item : Item)
    (u : LocalTableDef × Bool) (h : updateTableIndexes t item = .ok u) :
    u.1.name = t.name := by
  unfold updateTableIndexes at h
  split at h
  · exact Except.noConfusion h
  · rw [Except.ok.injEq] at h
    subst h
    rfl

theorem updateTableIndexes_nextId (t : LocalTableDef) (item : Item)
    (u : LocalTableDef × Bool) (h : updateTableIndexes t item = .ok u) :
    u.1.nextId = t.nextId := by
  unfold updateTableIndexes at h
  split at h
  · exact Except.noConfusion h
  · rw [Except.ok.injEq] at h
    subst h
    rfl

theorem updateTableIndexes_ok_indexes (t : LocalTableDef) (item : Item)
    (u : LocalTableDef × Bool) (h : updateTableIndexes t item = .ok u) :
    ∃ q, updateIndexesGo item t.indexes = .ok q ∧ u.1.indexes = q.1 := by
  unfold updateTableIndexes at h
  split at h
  · exact Except.noConfusion h
  · rename_i q heq
    rw [Except.ok.injEq] at h
    subst h
    exact ⟨q, heq, rfl⟩

theorem setItem_ok_shape (t : LocalTableDef) (item0 : Item) (st : Storage)
    (r : LocalTableDef × Item × Storage) (h : setItem t item0 st = .ok r) :
    ∃ u, updateTableIndexes
        (if falsy (itemGet item0 "id") = true then { t with nextId := t.nextId + 1 } else t)
        r.2.1 = .ok u ∧ u.1 = r.1 ∧
      r.2.1 = (if falsy (itemGet item0 "id") = true
        then setField item0 "id" (.num t.nextId) else item0) ∧
      r.2.2 = (if (falsy (itemGet item0 "id") || u.2) = true
        then storeSet (storeSet st (t.name ++ "|" ++ jsToString (itemGet r.2.1 "id"))
          (.item r.2.1)) t.name (.tbl u.1)
        else storeSet st (t.name ++ "|" ++ jsToString (itemGet r.2.1 "id")) (.item r.2.1)) := by
  unfold setItem at h
  simp only [] at h
  split at h
  · exact Except.noConfusion h
  · rename_i u heq
    rw [Except.ok.injEq] at h
    subst h
    exact ⟨u, heq, rfl, rfl, rfl⟩

theorem setItem_name (t : LocalTableDef) (item0 : Item) (st : Storage)
    (r : LocalTableDef × Item × Storage) (h : setItem t item0 st = .ok r) :
    r.1.name = t.name := by
  obtain ⟨u, hu, hu1, -, -⟩ := setItem_ok_shape t item0 st r h
  rw [← hu1, updateTableIndexes_name _ _ _ hu]
  split <;> rfl

theorem setItem_item_of_falsy (t : LocalTableDef) (item0 : Item) (st : Storage)
    (r : LocalTableDef × Item × Storage) (h : setItem t item0 st = .ok r)
    (hf : falsy (itemGet item0 "id") = true) :
    r.2.1 = setField item0 "id" (.num t.nextId) := by
  obtain ⟨u, -, -, hitem, -⟩ := setItem_ok_shape t item0 st r h
  rw [hitem, if_pos hf]

theorem setItem_item_of_not_falsy (t : LocalTableDef) (item0 : Item) (st : Storage)
    (r : LocalTableDef × Item × Storage) (h : setItem t item0 st = .ok r)
    (hf : ¬ falsy (itemGet item0 "id") = true) :
    r.2.1 = item0 := by
  obtain ⟨u, -, -, hitem, -⟩ := setItem_ok_shape t item0 st r h
  rw [hitem, if_neg hf]

theorem setItem_assigned_id (t : LocalTableDef) (item0 : Item) (st : Storage)
    (r : LocalTableDef × Item × Storage) (h : setItem t item0 st = .ok r)
    (hf : falsy (itemGet item0 "id") = true) :
    itemGet r.2.1 "id" = .num t.nextId := by
  rw [setItem_item_of_falsy t item0 st r h hf]
  exact itemGet_setField _ _ _

theorem setItem_nextId_of_falsy (t : LocalTableDef) (item0 : Item) (st : Storage)
    (r : LocalTableDef × Item × Storage) (h : setItem t item0 st = .ok r)
    (hf : falsy (itemGet item0 "id") = true) :
    r.1.nextId = t.nextId + 1 := by
  obtain ⟨u, hu, hu1, -, -⟩ := setItem_ok_shape t item0 st r h
  rw [← hu1, updateTableIndexes_nextId _ _ _ hu, if_pos hf]

theorem setItem_indexes (t : LocalTableDef) (item0 : Item) (st : Storage)
    (r : LocalTableDef × Item × Storage) (h : setItem t item0 st = .ok r) :
    ∃ q, updateIndexesGo r.2.1 t.indexes = .ok q ∧ r.1.indexes = q.1 := by
  obtain ⟨u, hu, hu1, -, -⟩ := setItem_ok_shape t item0 st r h
  obtain ⟨q, hq, hq1⟩ := updateTableIndexes_ok_indexes _ _ _ hu
  refine ⟨q, ?_, by rw [← hu1, hq1]⟩
  have hsame : (if falsy (itemGet item0 "id") = true
      then { t with nextId := t.nextId + 1 } else t).indexes = t.indexes := by
    split <;> rfl
  rw [← hsame]
  exact hq

theorem updateIndexesGo_ok_mem (item : Item) (idxs : List (String × LocalIndexDef))
    (q : List (String × LocalIndexDef) × Bool) (h : updateIndexesGo item idxs = .ok q) :
    ∀ p ∈ q.1, ∃ x ∈ idxs, ∃ rr,
      updateIndex x.2 (itemGet item "id") (itemGet item x.1) = .ok rr ∧ p = (x.1, rr.1) := by
  induction idxs generalizing q with
  | nil =>
    rw [updateIndexesGo, Except.ok.injEq] at h
    subst h
    intro p hp
    exact absurd hp (List.not_mem_nil p)
  | cons x rest ih =>
    rcases x with ⟨nm, idx⟩
    rw [updateIndexesGo] at h
    split at h
    · exact Except.noConfusion h
    · rename_i rr hrr
      split at h
      · exact Except.noConfusion h
      · rename_i qq hqq
        rw [Except.ok.injEq] at h
        subst h
        intro p hp
        rcases List.mem_cons.mp hp with rfl | hp
        · exact ⟨(nm, idx), List.mem_cons_self _ _, rr, hrr, rfl⟩
        · obtain ⟨y, hy, rr2, hrr2, hpeq⟩ := ih qq hqq p hp
          exact ⟨y, List.mem_cons_of_mem _ hy, rr2, hrr2, hpeq⟩

theorem storeGet_after_setItem (t : LocalTableDef) (item0 : Item) (st : Storage)
    (r : LocalTableDef × Item × Storage) (h : setItem t item0 st = .ok r) :
    storeGet r.2.2 (t.name ++ "|" ++ jsToString (itemGet r.2.1 "id"))
      = some (.item r.2.1) := by
  obtain ⟨u, -, -, -, hst⟩ := setItem_ok_shape t item0 st r h
  rw [hst]
  split
  · rw [storeGet_storeSet, if_neg (itemKey_ne_name _ _), storeGet_storeSet, if_pos rfl]
  · rw [storeGet_storeSet, if_pos rfl]

theorem removeItem_name (t : LocalTableDef) (id : String) (st : Storage) :
    (removeItem t id st).1.name = t.name := rfl

theorem removeItem_deletes_key (t : LocalTableDef) (id : String) (st : Storage) :
    storeGet (removeItem t id st).2 (t.name ++ "|" ++ id) = none := by
  unfold removeItem
  simp only []
  rw [storeGet_storeRemove, if_pos rfl]

/-! C4 — round-trip: `setItem` then `getItem` at the written id returns the
stored item. -/

/-- C4 counterexample: on a table whose non-numerical (string) index `"v"`
already holds a numeric-valued entry, `setItem` of a second item sorts an
array with a non-string comparator receiver; the call rejects with the
TypeError and writes nothing, so no read returns the item. -/
theorem setItem_getItem_roundTrip_counterexample :
    setItem ⟨"t", 2, [("v", ⟨true, false, some [⟨JVal.num 1, JVal.num 10⟩]⟩)]⟩
        [("v", JVal.num 7)] [] = .error typeErrorMsg ∧
    getItem ⟨"t", 2, [("v", ⟨true, false, some [⟨JVal.num 1, JVal.num 10⟩]⟩)]⟩
        (intToString 2) [] = none :=
  ⟨rfl, rfl⟩

/-- C4 (corrected): as stated — for every table and item — the round trip
fails: when the table has a non-numerical (string) index and the values the
sort compares include a non-string, the comparator
`(a.value as string).localeCompare(b.value)` raises a TypeError and
`setItem` rejects before its batched write, so nothing is stored and there
is no item to read back (see the counterexample).  Amended: whenever
`setItem(table, item)` completes, `getItem(table, id)` at the item's
(possibly auto-assigned) id returns a value deep-equal to the stored item,
including the assigned id field. -/
theorem setItem_getItem_roundTrip (t : LocalTableDef) (item0 : Item) (st : Storage)
    (r : LocalTableDef × Item × Storage) (h : setItem t item0 st = .ok r) :
    getItem r.1 (jsToString (itemGet r.2.1 "id")) r.2.2 = some (.item r.2.1) := by
  have hs := storeGet_after_setItem t item0 st r h
  unfold getItem
  rw [setItem_name t item0 st r h]
  exact hs

/-- C4 witness: the amended round trip at a concrete successful call. -/
theorem setItem_getItem_roundTrip_witness :
    setItem ⟨"t", 1, []⟩ [("v", JVal.str "a")] []
      = .ok (⟨"t", 2, []⟩, [("v", JVal.str "a"), ("id", JVal.num 1)],
          [("t", .tbl ⟨"t", 2, []⟩),
           ("t|1", .item [("v", JVal.str "a"), ("id", JVal.num 1)])]) ∧
    getItem (⟨"t", 2, []⟩ : LocalTableDef)
        (jsToString (itemGet [("v", JVal.str "a"), ("id", JVal.num 1)] "id"))
        [("t", .tbl ⟨"t", 2, []⟩),
         ("t|1", .item [("v", JVal.str "a"), ("id", JVal.num 1)])]
      = some (.item [("v", JVal.str "a"), ("id", JVal.num 1)]) :=
  ⟨rfl, setItem_getItem_roundTrip ⟨"t", 1, []⟩ [("v", JVal.str "a")] [] _ rfl⟩

/-! C6 — NotFound failures of `openTable` and `listItems`. -/

theorem indexNotFoundMsg_ne_typeError (s : String) : indexNotFoundMsg s ≠ typeErrorMsg := by
  intro h
  have h2 := congrArg String.length h
  rw [indexNotFoundMsg, typeErrorMsg, String.length_append, String.length_append] at h2
  have e1 : ("An index named " : String).length = 15 := rfl
  have e2 : (" could not be found." : String).length = 20 := rfl
  have e3 : ("TypeError" : String).length = 9 := rfl
  omega

theorem openTable_notFound_iff (name : String) (st : Storage) :
    openTable name st = .error (tableNotFoundMsg name) ↔ storeGet st name = none := by
  unfold openTable
  rcases storeGet st name with _ | v <;> simp

theorem listItems_notFound_iff (t : LocalTableDef) (indexName : String) (count : Int)
    (continuation : Option String) (st : Storage) :
    listItems t indexName count continuation st = .error (indexNotFoundMsg indexName)
      ↔ lookupIdx t.indexes indexName = none := by
  unfold listItems
  rcases lookupIdx t.indexes indexName with _ | idx
  · simp
  · simp only [reduceCtorEq, iff_false]
    intro h
    split at h
    · exact Except.noConfusion h
    · split at h
      · exact Except.noConfusion h
      · split at h
        · split at h
          · rw [Except.error.injEq] at h
            exact indexNotFoundMsg_ne_typeError indexName h.symm
          · exact Except.noConfusion h
        · exact Except.noConfusion h

/-- C6: `openTable` fails with its NotFound error exactly when nothing is
stored under the table name, and `listItems` fails with its NotFound error
exactly when the index name is not among the table's defined indexes; both
surface as hard failures of the whole operation (the model returns
`Except.error`, no retry exists in the code). -/
theorem notFound_characterization (name : String) (st : Storage) (t : LocalTableDef)
    (indexName : String) (count : Int) (continuation : Option String) :
    (openTable name st = .error (tableNotFoundMsg name) ↔ storeGet st name = none) ∧
    (listItems t indexName count continuation st = .error (indexNotFoundMsg indexName)
      ↔ lookupIdx t.indexes indexName = none) :=
  ⟨openTable_notFound_iff name st, listItems_notFound_iff t indexName count continuation st⟩

/-! C7 — absent semantics of `getItem`. -/

/-- C7: `getItem` on an id whose key was never written returns the absent
sentinel (`none`, the model of `undefined`) rather than failing — its type
is total, it cannot throw — and the same holds for an id whose item was just
removed. -/
theorem getItem_absent (t : LocalTableDef) (id : String) (st : Storage) :
    (storeGet st (t.name ++ "|" ++ id) = none → getItem t id st = none) ∧
    getItem (removeItem t id st).1 id (removeItem t id st).2 = none := by
  constructor
  · intro h
    exact h
  · unfold getItem
    rw [removeItem_name]
    exact removeItem_deletes_key t id st

/-- Witness for C7 at a concrete never-written id and a concrete removal. -/
theorem getItem_absent_witness :
    storeGet [] (({ name := "t", nextId := 1, indexes := []} : LocalTableDef).name
        ++ "|" ++ "x") = none ∧
    getItem { name := "t", nextId := 1, indexes := [] } "x" [] = none := by
  refine ⟨by decide, ?_⟩
  exact (getItem_absent { name := "t", nextId := 1, indexes := [] } "x" []).1 (by decide)

/-! C8 — idempotence of `defineTable`. -/

/-- C8: `defineTable` writes `{name, nextId := 1, indexes := indexDefs ?? {}}`
when nothing is stored under the name, performs no write when a definition
exists (leaving it unchanged even under different index definitions), and in
particular redefining an existing table is a no-op. -/
theorem defineTable_idempotent (name : String)
    (idxs1 idxs2 : Option (List (String × LocalIndexDef))) (st : Storage) :
    (storeGet st name ≠ none → defineTable name idxs1 st = st) ∧
    (storeGet st name = none →
      defineTable name idxs1 st
        = storeSet st name (.tbl { name := name, nextId := 1, indexes := idxs1.getD [] })) ∧
    defineTable name idxs2 (defineTable name idxs1 st) = defineTable name idxs1 st := by
  unfold defineTable
  rcases h : storeGet st name with _ | v
  · simp only []
    refine ⟨fun hc => absurd rfl hc, fun _ => trivial, ?_⟩
    rw [storeGet_storeSet, if_pos rfl]
  · simp only []
    exact ⟨fun _ => trivial, fun hc => Option.noConfusion hc, by rw [h]⟩

/-- Witness for C8: a fresh definition followed by a conflicting
redefinition on concrete data. -/
theorem defineTable_idempotent_witness :
    (storeGet [] "t" = none →
      defineTable "t" none []
        = storeSet [] "t" (.tbl { name := "t", nextId := 1, indexes := [] })) ∧
    defineTable "t" (some [("v", ⟨true, true, none⟩)]) (defineTable "t" none [])
      = defineTable "t" none [] :=
  ⟨(defineTable_idempotent "t" none (some [("v", ⟨true, true, none⟩)]) []).2.1,
   (defineTable_idempotent "t" none (some [("v", ⟨true, true, none⟩)]) []).2.2⟩

/-! C3 — auto-id monotonicity. -/

theorem runSets_assigned (items : List Item) :
    ∀ (t : LocalTableDef) (st : Storage) (out : LocalTableDef × Storage × List Item),
      runSets t st items = .ok out →
      (∀ it ∈ items, itemGet it "id" = .undef) →
      out.2.2.map (fun it => itemGet it "id")
          = (List.range items.length).map (fun k : Nat => JVal.num (t.nextId + (k : Int))) ∧
        out.1.nextId = t.nextId + items.length := by
  induction items with
  | nil =>
    intro t st out hrun _
    simp only [runSets] at hrun
    rw [Except.ok.injEq] at hrun
    subst hrun
    exact ⟨rfl, by simp⟩
  | cons it items ih =>
    intro t st out hrun h
    have hfal : falsy (itemGet it "id") = true := by
      rw [h it (List.mem_cons_self it items)]
      rfl
    simp only [runSets] at hrun
    split at hrun
    · exact Except.noConfusion hrun
    · rename_i r hset
      split at hrun
      · exact Except.noConfusion hrun
      · rename_i q hq
        rw [Except.ok.injEq] at hrun
        subst hrun
        have hrest := ih r.1 r.2.2 q hq (fun x hx => h x (List.mem_cons_of_mem it hx))
        rw [setItem_nextId_of_falsy t it st r hset hfal] at hrest
        constructor
        · simp only [List.map_cons, List.length_cons, List.range_succ_eq_map,
            List.map_map]
          rw [setItem_assigned_id t it st r hset hfal, hrest.1]
          congr 1
          · simp
          · apply List.map_congr_left
            intro k _
            simp only [Function.comp_apply, JVal.num.injEq]
            push_cast
            ring
        · simp only [List.length_cons]
          rw [hrest.2]
          push_cast
          ring

/-- C3: on a freshly defined table (`nextId = 1`), N consecutive `setItem`
calls whose items carry no id field — a sequence that completes, each call
returning — assign the ids 1..N in call order, each call writing the
assigned (numeric) id into the item handed back, and after the N-th call
the in-memory table definition's `nextId` equals N + 1.  (In the source the
assignment and the `nextId` bump precede the index maintenance, so they are
not disturbed by anything the maintenance does.) -/
theorem autoId_monotonicity (t : LocalTableDef) (st : Storage) (items : List Item)
    (out : LocalTableDef × Storage × List Item)
    (hrun : runSets t st items = .ok out)
    (hfresh : t.nextId = 1) (hnoid : ∀ it ∈ items, itemGet it "id" = .undef) :
    out.2.2.map (fun it => itemGet it "id")
        = (List.range items.length).map (fun k : Nat => JVal.num (1 + (k : Int))) ∧
      out.1.nextId = items.length + 1 := by
  have h := runSets_assigned items t st out hrun hnoid
  rw [hfresh] at h
  refine ⟨h.1, ?_⟩
  rw [h.2]
  ring

/-- Witness for C3 on a concrete fresh table and two id-less items. -/
theorem autoId_monotonicity_witness :
    (({ name := "test", nextId := 1, indexes := [] } : LocalTableDef).nextId = 1 ∧
      ∀ it ∈ [[("value", JVal.str "a")], [("value", JVal.str "b")]],
        itemGet it "id" = .undef) ∧
    ((((⟨"test", 3, []⟩, [("test", .tbl ⟨"test", 3, []⟩),
        ("test|2", .item [("value", JVal.str "b"), ("id", JVal.num 2)]),
        ("test|1", .item [("value", JVal.str "a"), ("id", JVal.num 1)])],
       [[("value", JVal.str "a"), ("id", JVal.num 1)],
        [("value", JVal.str "b"), ("id", JVal.num 2)]])
      : LocalTableDef × Storage × List Item)).2.2.map (fun it => itemGet it "id")
        = (List.range 2).map (fun k : Nat => JVal.num (1 + (k : Int))) ∧
      (((⟨"test", 3, []⟩, [("test", .tbl ⟨"test", 3, []⟩),
        ("test|2", .item [("value", JVal.str "b"), ("id", JVal.num 2)]),
        ("test|1", .item [("value", JVal.str "a"), ("id", JVal.num 1)])],
       [[("value", JVal.str "a"), ("id", JVal.num 1)],
        [("value", JVal.str "b"), ("id", JVal.num 2)]])
      : LocalTableDef × Storage × List Item)).1.nextId = 2 + 1) :=
  ⟨⟨rfl, by decide⟩,
    autoId_monotonicity { name := "test", nextId := 1, indexes := [] } []
      [[("value", JVal.str "a")], [("value", JVal.str "b")]] (((⟨"test", 3, []⟩, [("test", .tbl ⟨"test", 3, []⟩),
        ("test|2", .item [("value", JVal.str "b"), ("id", JVal.num 2)]),
        ("test|1", .item [("value", JVal.str "a"), ("id", JVal.num 1)])],
       [[("value", JVal.str "a"), ("id", JVal.num 1)],
        [("value", JVal.str "b"), ("id", JVal.num 2)]])
      : LocalTableDef × Storage × List Item)) rfl rfl (by decide)⟩

/-! C9 — `listItems` with a non-positive count returns an empty page whose
continuation token is the same offset, so a paging caller never advances. -/

/-- C9: when the index exists with a non-empty `values` sequence, `count ≤ 0`
and the continuation encodes an in-range start offset, `listItems` returns an
empty items list together with a continuation equal to that same offset —
threading it forward never advances and the page sequence never ends. -/
theorem listItems_nonpositive_count (t : LocalTableDef) (indexName : String)
    (idx : LocalIndexDef) (vs : List LocalIndexKey) (count : Int) (s : Nat) (st : Storage)
    (hidx : lookupIdx t.indexes indexName = some idx)
    (hvs : idx.values = some vs)
    (hcount : count ≤ 0)
    (hs : s < vs.length) :
    listItems t indexName count (some (intToString (s : Int))) st
      = .ok { items := [], continuation := some (intToString (s : Int)) } := by
  unfold listItems
  rw [hidx]
  have h0 : count.toNat = 0 := by omega
  have hs2 : ((s : Int) < (vs.length : Int)) := by exact_mod_cast hs
  have he : ((intToString (s : Int)) == "") = false :=
    beq_eq_false_iff_ne.mpr (intToString_ne_empty _)
  simp only [hvs, he, Bool.false_eq_true, if_false, jsParseInt_intToString, h0, fetchGo,
    List.map_nil, if_pos hs2]

/-- Witness for C9 on a concrete one-entry numerical index with count 0. -/
theorem listItems_nonpositive_count_witness :
    (lookupIdx (⟨"t", 2, [("v", ⟨true, true, some [⟨JVal.num 1, JVal.num 5⟩]⟩)]⟩
          : LocalTableDef).indexes "v"
        = some ⟨true, true, some [⟨JVal.num 1, JVal.num 5⟩]⟩ ∧
      (0 : Nat) < [(⟨JVal.num 1, JVal.num 5⟩ : LocalIndexKey)].length) ∧
    listItems ⟨"t", 2, [("v", ⟨true, true, some [⟨JVal.num 1, JVal.num 5⟩]⟩)]⟩ "v" 0
        (some (intToString ((0 : Nat) : Int))) []
      = .ok { items := [], continuation := some (intToString ((0 : Nat) : Int)) } :=
  ⟨⟨by decide, by decide⟩,
    listItems_nonpositive_count _ "v" ⟨true, true, some [⟨JVal.num 1, JVal.num 5⟩]⟩ _ 0 0 []
      (by decide) rfl (by decide) (by decide)⟩

/-! C5 — deletion cascade: `removeItem` and `deleteTable`. -/

theorem removeOnce_eq_filter (id : String) (vs : List LocalIndexKey)
    (h : (vs.filter (fun e => looseEq e.id (.str id))).length ≤ 1) :
    (removeOnce id vs).1 = vs.filter (fun e => !(looseEq e.id (.str id))) := by
  induction vs with
  | nil => rfl
  | cons e rest ih =>
    by_cases he : looseEq e.id (.str id) = true
    · have hfc : (e :: rest).filter (fun x => looseEq x.id (.str id))
          = e :: rest.filter (fun x => looseEq x.id (.str id)) := by
        simp [List.filter_cons, he]
      rw [hfc, List.length_cons] at h
      have hrest : rest.filter (fun x => looseEq x.id (.str id)) = [] :=
        List.length_eq_zero.mp (by omega)
      have hall := List.filter_eq_nil.mp hrest
      have hlhs : (removeOnce id (e :: rest)).1 = rest := by
        simp [removeOnce, he]
      have hfc2 : (e :: rest).filter (fun x => !(looseEq x.id (.str id)))
          = rest.filter (fun x => !(looseEq x.id (.str id))) := by
        simp [List.filter_cons, he]
      rw [hlhs, hfc2, List.filter_eq_self.mpr]
      intro x hx
      have hx2 := hall x hx
      simp only [Bool.not_eq_true] at hx2
      simp [hx2]
    · have he' : looseEq e.id (.str id) = false := by simpa using he
      have hfc : (e :: rest).filter (fun x => looseEq x.id (.str id))
          = rest.filter (fun x => looseEq x.id (.str id)) := by
        simp [List.filter_cons, he']
      rw [hfc] at h
      have hlhs : (removeOnce id (e :: rest)).1 = e :: (removeOnce id rest).1 := by
        simp [removeOnce, he']
      have hfc2 : (e :: rest).filter (fun x => !(looseEq x.id (.str id)))
          = e :: rest.filter (fun x => !(looseEq x.id (.str id))) := by
        simp [List.filter_cons, he']
      rw [hlhs, hfc2, ih h]

theorem removeIdxOne_values (id : String) (idx : LocalIndexDef) :
    (removeIdxOne id idx).1
      = { idx with values := idx.values.map (fun vs => (removeOnce id vs).1) } := by
  rcases idx with ⟨a, n, v⟩
  rcases v with _ | vs <;> rfl

theorem removeIdxGo_eq_map (id : String) (idxs : List (String × LocalIndexDef)) :
    (removeIdxGo id idxs).1 = idxs.map (fun p =>
      (p.1, { p.2 with values := p.2.values.map (fun vs => (removeOnce id vs).1) })) := by
  induction idxs with
  | nil => rfl
  | cons p rest ih =>
    rcases p with ⟨nm, idx⟩
    show (nm, (removeIdxOne id idx).1) :: (removeIdxGo id rest).1 = _
    rw [ih, removeIdxOne_values]
    rfl

theorem removeItem_indexes (t : LocalTableDef) (id : String) (st : Storage) :
    (removeItem t id st).1.indexes = (removeIdxGo id t.indexes).1 := rfl

theorem find?_key_filter_of (st : Storage) (q : String × Stored → Bool) (k : String)
    (h : ∀ p ∈ st, p.1 = k → q p = true) :
    (st.filter q).find? (fun p => p.1 == k) = st.find? (fun p => p.1 == k) := by
  induction st with
  | nil => rfl
  | cons a st ih =>
    by_cases hq : q a = true
    · rw [List.filter_cons_of_pos hq]
      by_cases hk : a.1 = k
      · rw [List.find?_cons_of_pos _ (by simp [hk]), List.find?_cons_of_pos _ (by simp [hk])]
      · rw [List.find?_cons_of_neg _ (by simp [hk]), List.find?_cons_of_neg _ (by simp [hk])]
        exact ih (fun p hp => h p (List.mem_cons_of_mem a hp))
    · have hk : a.1 ≠ k := fun hk => hq (h a (List.mem_cons_self a st) hk)
      rw [List.filter_cons_of_neg hq, List.find?_cons_of_neg _ (by simp [hk])]
      exact ih (fun p hp => h p (List.mem_cons_of_mem a hp))

theorem storeGet_some_key_mem {st : Storage} {k : String} {v : Stored}
    (h : storeGet st k = some v) : k ∈ st.map Prod.fst := by
  unfold storeGet at h
  rcases hf : st.find? (fun p => p.1 == k) with _ | p
  · rw [hf] at h
    exact Option.noConfusion h
  · have hmem := List.mem_of_find?_eq_some hf
    have hpk : (p.1 == k) = true := @List.find?_some _ (fun q => q.1 == k) p st hf
    rw [beq_iff_eq] at hpk
    exact List.mem_map.mpr ⟨p, hmem, hpk⟩

theorem storeGet_deleteTable (name : String) (st : Storage) (k : String) :
    storeGet (deleteTable name st) k
      = if (k == name || strStartsWith k (name ++ "|")) = true then none
        else storeGet st k := by
  unfold deleteTable
  simp only []
  split
  · rename_i hempty
    rw [List.isEmpty_iff] at hempty
    by_cases hk : (k == name || strStartsWith k (name ++ "|")) = true
    · rw [if_pos hk]
      rcases hg : storeGet st k with _ | v
      · rfl
      · exfalso
        have hmem : k ∈ (st.map Prod.fst).filter
            (fun x => x == name || strStartsWith x (name ++ "|")) :=
          List.mem_filter.mpr ⟨storeGet_some_key_mem hg, hk⟩
        rw [hempty] at hmem
        exact List.not_mem_nil k hmem
    · rw [if_neg hk]
  · rename_i hne
    by_cases hk : (k == name || strStartsWith k (name ++ "|")) = true
    · rw [if_pos hk]
      unfold storeGet
      rw [List.find?_eq_none.mpr]
      · rfl
      · intro p hp hpk
        rw [beq_iff_eq] at hpk
        rcases List.mem_filter.mp hp with ⟨hpst, hnc⟩
        have hmemk : p.1 ∈ (st.map Prod.fst).filter
            (fun x => x == name || strStartsWith x (name ++ "|")) :=
          List.mem_filter.mpr ⟨List.mem_map.mpr ⟨p, hpst, rfl⟩, by rw [hpk]; exact hk⟩
        have : ((st.map Prod.fst).filter
            (fun x => x == name || strStartsWith x (name ++ "|"))).contains p.1 = true :=
          List.contains_iff_exists_mem_beq.mpr ⟨p.1, hmemk, by simp⟩
        rw [this] at hnc
        exact Bool.noConfusion hnc
    · rw [if_neg hk]
      unfold storeGet
      rw [find?_key_filter_of]
      intro p hp hpk
      by_cases hc : ((st.map Prod.fst).filter
          (fun x => x == name || strStartsWith x (name ++ "|"))).contains p.1 = true
      · exfalso
        rcases List.contains_iff_exists_mem_beq.mp hc with ⟨x, hxmem, hxb⟩
        rw [beq_iff_eq] at hxb
        rcases List.mem_filter.mp hxmem with ⟨-, hxp⟩
        rw [← hxb, hpk] at hxp
        exact hk hxp
      · simp only [Bool.not_eq_true] at hc
        rw [hc]
        rfl

theorem deleteTable_noop (name : String) (st : Storage)
    (h : ∀ p ∈ st, (p.1 == name || strStartsWith p.1 (name ++ "|")) = false) :
    deleteTable name st = st := by
  unfold deleteTable
  simp only []
  have hnil : (st.map Prod.fst).filter
      (fun x => x == name || strStartsWith x (name ++ "|")) = [] := by
    rw [List.filter_eq_nil]
    intro x hx
    rcases List.mem_map.mp hx with ⟨p, hp, rfl⟩
    rw [h p hp]
    exact Bool.noConfusion
  rw [hnil]
  rfl

/-- C5: `removeItem(table, id)` deletes the item's storage key
`tableName|id` and removes the (unique) entry with that id from every index
of the table; `deleteTable(name)` removes exactly the key `name` and every
key prefixed by `name|`, and is a structural no-op when no such key exists.
The uniqueness hypothesis (at most one loosely-matching entry per index) is
the state every reachable index satisfies. -/
theorem deletion_cascade (t : LocalTableDef) (id : String) (st : Storage)
    (name : String) (st2 : Storage)
    (hone : ∀ p ∈ t.indexes, ∀ vs, p.2.values = some vs →
      (vs.filter (fun e => looseEq e.id (.str id))).length ≤ 1)
    (hnone : ∀ p ∈ st2, (p.1 == name || strStartsWith p.1 (name ++ "|")) = false) :
    storeGet (removeItem t id st).2 (t.name ++ "|" ++ id) = none ∧
    (removeItem t id st).1.indexes = t.indexes.map (fun p =>
      (p.1, { p.2 with values := p.2.values.map (fun vs => vs.filter (fun e => !(looseEq e.id (.str id)))) })) ∧
    (∀ k, storeGet (deleteTable name st) k
      = if (k == name || strStartsWith k (name ++ "|")) = true then none
        else storeGet st k) ∧
    deleteTable name st2 = st2 := by
  refine ⟨removeItem_deletes_key t id st, ?_, fun k => storeGet_deleteTable name st k,
    deleteTable_noop name st2 hnone⟩
  rw [removeItem_indexes, removeIdxGo_eq_map]
  apply List.map_congr_left
  intro p hp
  rcases hv : p.2.values with _ | vs
  · rfl
  · simp only [Option.map_some']
    rw [removeOnce_eq_filter id vs (hone p hp vs hv)]

/-- Witness for C5 on a concrete table, index and storage. -/
theorem deletion_cascade_witness :
    ((∀ p ∈ [("v", (⟨true, true, some [⟨JVal.str "a", JVal.num 1⟩]⟩ : LocalIndexDef))],
        ∀ vs, p.2.values = some vs →
          (vs.filter (fun e => looseEq e.id (.str "a"))).length ≤ 1) ∧
      (∀ p ∈ [(("u|x" : String), Stored.item [("id", JVal.str "x")])],
        (p.1 == "w" || strStartsWith p.1 ("w" ++ "|")) = false)) ∧
    (storeGet (removeItem ⟨"t", 1, [("v", ⟨true, true, some [⟨JVal.str "a", JVal.num 1⟩]⟩)]⟩
          "a" [("t|a", Stored.item [("id", JVal.str "a")])]).2
        (("t" : String) ++ "|" ++ "a") = none ∧
      (removeItem ⟨"t", 1, [("v", ⟨true, true, some [⟨JVal.str "a", JVal.num 1⟩]⟩)]⟩
          "a" [("t|a", Stored.item [("id", JVal.str "a")])]).1.indexes
        = [("v", (⟨true, true, some [⟨JVal.str "a", JVal.num 1⟩]⟩ : LocalIndexDef))].map
            (fun p => (p.1, { p.2 with values := p.2.values.map (fun vs => vs.filter (fun e => !(looseEq e.id (.str "a")))) })) ∧
      (∀ k, storeGet (deleteTable "w" [("t|a", Stored.item [("id", JVal.str "a")])]) k
        = if (k == "w" || strStartsWith k (("w" : String) ++ "|")) = true then none
          else storeGet [("t|a", Stored.item [("id", JVal.str "a")])] k) ∧
      deleteTable "w" [(("u|x" : String), Stored.item [("id", JVal.str "x")])]
        = [(("u|x" : String), Stored.item [("id", JVal.str "x")])]) :=
  ⟨⟨by decide, by decide⟩,
    deletion_cascade ⟨"t", 1, [("v", ⟨true, true, some [⟨JVal.str "a", JVal.num 1⟩]⟩)]⟩
      "a" [("t|a", Stored.item [("id", JVal.str "a")])] "w"
      [(("u|x" : String), Stored.item [("id", JVal.str "x")])]
      (by decide) (by decide)⟩

/-! C10 — auto-assigned ids are numbers, yet the decimal string form
addresses the same item through keys and loose index matching. -/

theorem updEntries_no_match (id value : JVal) (vs : List LocalIndexKey)
    (h : ∀ e ∈ vs, looseEq e.id id = false) :
    updEntries id value vs = (vs, false, false) := by
  induction vs with
  | nil => rfl
  | cons e rest ih =>
    have he := h e (List.mem_cons_self e rest)
    simp only [updEntries, he, Bool.false_eq_true, if_false]
    rw [ih (fun x hx => h x (List.mem_cons_of_mem e hx))]

theorem updateIndex_ok_eq (idx : LocalIndexDef) (id raw : JVal) (rr : LocalIndexDef × Bool)
    (hok : updateIndex idx id raw = .ok rr) : rr = updateIndexOk idx id raw := by
  unfold updateIndex at hok
  simp only [] at hok
  split at hok
  all_goals try split at hok
  all_goals try split at hok
  all_goals
    first
      | exact Except.noConfusion hok
      | (rw [Except.ok.injEq] at hok; exact hok.symm)

theorem updateIndexesGo_ok_eq (item : Item) (idxs : List (String × LocalIndexDef))
    (q : List (String × LocalIndexDef) × Bool) (h : updateIndexesGo item idxs = .ok q) :
    q.1 = idxs.map (fun p =>
      (p.1, (updateIndexOk p.2 (itemGet item "id") (itemGet item p.1)).1)) := by
  induction idxs generalizing q with
  | nil =>
    rw [updateIndexesGo, Except.ok.injEq] at h
    subst h
    rfl
  | cons x rest ih =>
    rcases x with ⟨nm, idx⟩
    rw [updateIndexesGo] at h
    split at h
    · exact Except.noConfusion h
    · rename_i rr hrr
      split at h
      · exact Except.noConfusion h
      · rename_i qq hqq
        rw [Except.ok.injEq] at h
        subst h
        show (nm, rr.1) :: qq.1 = _
        rw [List.map_cons, ih qq hqq,
          updateIndex_ok_eq idx (itemGet item "id") (itemGet item nm) rr hrr]

theorem updateIndex_no_match (idx : LocalIndexDef) (id raw : JVal)
    (h : ∀ vs, idx.values = some vs → ∀ e ∈ vs, looseEq e.id id = false) :
    (updateIndexOk idx id raw).1
      = { idx with values := some (sortValues idx.numerical idx.ascending ((idx.values.getD []) ++ [⟨id, updVal idx.numerical raw⟩])) } := by
  rcases idx with ⟨a, n, v⟩
  rcases v with _ | vs
  · rfl
  · have hno := h vs rfl
    unfold updateIndexOk
    simp only []
    rw [updEntries_no_match id _ vs hno]
    simp only []
    rfl

theorem looseEq_num_str_self (n : Int) :
    looseEq (.num n) (.str (intToString n)) = true := by
  simp [looseEq, jsToNum?_intToString]

/-- C10 counterexample: on the shape the host app itself uses — a
non-numerical descending `timestamp` index holding numeric values — the
claimed behaviour fails outright: `setItem` of a second id-less item makes
the string-index sort compare a non-string receiver, the call rejects with
the TypeError, and nothing is stored for any form of the would-be id. -/
theorem autoId_string_addressing_counterexample :
    falsy (itemGet [("timestamp", JVal.num 200)] "id") = true ∧
    setItem ⟨"logs", 2, [("timestamp", ⟨false, false, some [⟨JVal.num 1, JVal.num 100⟩]⟩)]⟩
        [("timestamp", JVal.num 200)] [] = .error typeErrorMsg ∧
    getItem ⟨"logs", 2, [("timestamp", ⟨false, false, some [⟨JVal.num 1, JVal.num 100⟩]⟩)]⟩
        (intToString 2) [] = none :=
  ⟨rfl, rfl, rfl⟩

/-- C10 (corrected): as stated — over every table — the property fails,
because `setItem` can reject in the string-index sort before storing
anything (see the counterexample).  Amended: when `setItem` completes and
auto-assigns an id, the value written into the item's id field is a number
(not a string); nevertheless the decimal string form of that id addresses
the same item everywhere: `getItem` with the string hits the stored item,
the key built from the (numeric) index entry id resolves to the stored item
(this is how `listItems` fetches), and `removeItem` with the string both
deletes the storage key and clears the matching index entries, because keys
are built by string interpolation and index matching uses loose equality.
The freshness hypothesis says no pre-existing entry loosely matches the id
about to be assigned, which is how any reachable table relates to its own
`nextId`. -/
theorem autoId_string_addressing (t : LocalTableDef) (item0 : Item) (st : Storage)
    (r : LocalTableDef × Item × Storage)
    (hok : setItem t item0 st = .ok r)
    (hfalsy : falsy (itemGet item0 "id") = true)
    (hfresh : ∀ p ∈ t.indexes, ∀ vs, p.2.values = some vs → ∀ e ∈ vs,
      looseEq e.id (.num t.nextId) = false
        ∧ looseEq e.id (.str (intToString t.nextId)) = false) :
    itemGet r.2.1 "id" = .num t.nextId ∧
    getItem r.1 (intToString t.nextId) r.2.2 = some (.item r.2.1) ∧
    (∀ e : LocalIndexKey, e.id = .num t.nextId →
      storeGet r.2.2 (r.1.name ++ "|" ++ jsToString e.id) = some (.item r.2.1)) ∧
    storeGet (removeItem r.1 (intToString t.nextId) r.2.2).2
      (r.1.name ++ "|" ++ intToString t.nextId) = none ∧
    ∀ p ∈ (removeItem r.1 (intToString t.nextId) r.2.2).1.indexes,
      ∀ vs, p.2.values = some vs → ∀ e ∈ vs,
        looseEq e.id (.str (intToString t.nextId)) = false := by
  have hid := setItem_assigned_id t item0 st r hok hfalsy
  have hget : getItem r.1 (intToString t.nextId) r.2.2 = some (.item r.2.1) := by
    have hrt := storeGet_after_setItem t item0 st r hok
    rw [hid] at hrt
    unfold getItem
    rw [setItem_name t item0 st r hok]
    exact hrt
  refine ⟨hid, hget, ?_, removeItem_deletes_key _ _ _, ?_⟩
  · intro e he
    rw [he]
    have hrt := storeGet_after_setItem t item0 st r hok
    rw [hid] at hrt
    rw [setItem_name t item0 st r hok]
    exact hrt
  · obtain ⟨q0, hq0, hq01⟩ := setItem_indexes t item0 st r hok
    have hidx : r.1.indexes = t.indexes.map (fun p =>
        (p.1, (updateIndexOk p.2 (.num t.nextId) (itemGet r.2.1 p.1)).1)) := by
      rw [hq01, updateIndexesGo_ok_eq _ _ _ hq0, hid]
    intro p hp vs hvs e he
    rw [removeItem_indexes, removeIdxGo_eq_map, hidx, List.map_map] at hp
    rcases List.mem_map.mp hp with ⟨q, hq, hqe⟩
    have hun := updateIndex_no_match q.2 (.num t.nextId)
      (itemGet r.2.1 q.1)
      (fun vs0 hvs0 e0 he0 => (hfresh q hq vs0 hvs0 e0 he0).1)
    subst hqe
    simp only [Function.comp_apply, hun] at hvs
    set sorted := sortValues q.2.numerical q.2.ascending
      ((q.2.values.getD []) ++ [⟨JVal.num t.nextId,
        updVal q.2.numerical (itemGet r.2.1 q.1)⟩]) with hsorted
    have hvs2 : vs = (removeOnce (intToString t.nextId) sorted).1 := by
      simp only [Option.map_some'] at hvs
      exact (Option.some_inj.mp hvs).symm
    have hperm := sortValues_perm q.2.numerical q.2.ascending
      ((q.2.values.getD []) ++ [(⟨JVal.num t.nextId,
        updVal q.2.numerical (itemGet r.2.1 q.1)⟩ : LocalIndexKey)])
    have hflen : (sorted.filter
        (fun x => looseEq x.id (.str (intToString t.nextId)))).length ≤ 1 := by
      have hp2 := (hperm.filter (fun x => looseEq x.id (.str (intToString t.nextId)))).length_eq
      rw [hsorted, hp2, List.filter_append]
      have hold : (q.2.values.getD []).filter
          (fun x => looseEq x.id (.str (intToString t.nextId))) = [] := by
        rw [List.filter_eq_nil]
        intro x hx
        rcases hv : q.2.values with _ | vs0
        · rw [hv] at hx
          exact absurd hx (List.not_mem_nil x)
        · rw [hv] at hx
          rw [(hfresh q hq vs0 hv x hx).2]
          exact Bool.noConfusion
      rw [hold]
      simp [List.filter_cons, looseEq_num_str_self]
    rw [hvs2, removeOnce_eq_filter _ _ hflen] at he
    exact (Bool.not_eq_true _).mp (by simpa using (List.mem_filter.mp he).2)

/-- Witness for C10: an auto-assigned id on a concrete indexed table, then
string-form lookup and removal, the call completing (the index is
numerical, so its comparator subtracts and cannot throw). -/
theorem autoId_string_addressing_witness :
    (setItem ⟨"t", 1, [("v", ⟨true, true, some [⟨JVal.str "a", JVal.num 5⟩]⟩)]⟩
        [("v", JVal.num 3)] [] = .ok ((⟨"t", 2, [("v", ⟨true, true, some [⟨JVal.num 1, JVal.num 3⟩, ⟨JVal.str "a", JVal.num 5⟩]⟩)]⟩,
       [("v", JVal.num 3), ("id", JVal.num 1)],
       [("t", .tbl ⟨"t", 2, [("v", ⟨true, true, some [⟨JVal.num 1, JVal.num 3⟩, ⟨JVal.str "a", JVal.num 5⟩]⟩)]⟩),
        ("t|1", .item [("v", JVal.num 3), ("id", JVal.num 1)])])
      : LocalTableDef × Item × Storage) ∧
      falsy (itemGet [("v", JVal.num 3)] "id") = true ∧
      ∀ p ∈ [("v", (⟨true, true, some [⟨JVal.str "a", JVal.num 5⟩]⟩ : LocalIndexDef))],
        ∀ vs, p.2.values = some vs → ∀ e ∈ vs,
          looseEq e.id (.num 1) = false ∧ looseEq e.id (.str (intToString 1)) = false) ∧
    (itemGet ((⟨"t", 2, [("v", ⟨true, true, some [⟨JVal.num 1, JVal.num 3⟩, ⟨JVal.str "a", JVal.num 5⟩]⟩)]⟩,
       [("v", JVal.num 3), ("id", JVal.num 1)],
       [("t", .tbl ⟨"t", 2, [("v", ⟨true, true, some [⟨JVal.num 1, JVal.num 3⟩, ⟨JVal.str "a", JVal.num 5⟩]⟩)]⟩),
        ("t|1", .item [("v", JVal.num 3), ("id", JVal.num 1)])])
      : LocalTableDef × Item × Storage).2.1 "id" = .num 1 ∧
    getItem ((⟨"t", 2, [("v", ⟨true, true, some [⟨JVal.num 1, JVal.num 3⟩, ⟨JVal.str "a", JVal.num 5⟩]⟩)]⟩,
       [("v", JVal.num 3), ("id", JVal.num 1)],
       [("t", .tbl ⟨"t", 2, [("v", ⟨true, true, some [⟨JVal.num 1, JVal.num 3⟩, ⟨JVal.str "a", JVal.num 5⟩]⟩)]⟩),
        ("t|1", .item [("v", JVal.num 3), ("id", JVal.num 1)])])
      : LocalTableDef × Item × Storage).1 (intToString 1) ((⟨"t", 2, [("v", ⟨true, true, some [⟨JVal.num 1, JVal.num 3⟩, ⟨JVal.str "a", JVal.num 5⟩]⟩)]⟩,
       [("v", JVal.num 3), ("id", JVal.num 1)],
       [("t", .tbl ⟨"t", 2, [("v", ⟨true, true, some [⟨JVal.num 1, JVal.num 3⟩, ⟨JVal.str "a", JVal.num 5⟩]⟩)]⟩),
        ("t|1", .item [("v", JVal.num 3), ("id", JVal.num 1)])])
      : LocalTableDef × Item × Storage).2.2 = some (.item ((⟨"t", 2, [("v", ⟨true, true, some [⟨JVal.num 1, JVal.num 3⟩, ⟨JVal.str "a", JVal.num 5⟩]⟩)]⟩,
       [("v", JVal.num 3), ("id", JVal.num 1)],
       [("t", .tbl ⟨"t", 2, [("v", ⟨true, true, some [⟨JVal.num 1, JVal.num 3⟩, ⟨JVal.str "a", JVal.num 5⟩]⟩)]⟩),
        ("t|1", .item [("v", JVal.num 3), ("id", JVal.num 1)])])
      : LocalTableDef × Item × Storage).2.1) ∧
    (∀ e : LocalIndexKey, e.id = .num 1 →
      storeGet ((⟨"t", 2, [("v", ⟨true, true, some [⟨JVal.num 1, JVal.num 3⟩, ⟨JVal.str "a", JVal.num 5⟩]⟩)]⟩,
       [("v", JVal.num 3), ("id", JVal.num 1)],
       [("t", .tbl ⟨"t", 2, [("v", ⟨true, true, some [⟨JVal.num 1, JVal.num 3⟩, ⟨JVal.str "a", JVal.num 5⟩]⟩)]⟩),
        ("t|1", .item [("v", JVal.num 3), ("id", JVal.num 1)])])
      : LocalTableDef × Item × Storage).2.2 (((⟨"t", 2, [("v", ⟨true, true, some [⟨JVal.num 1, JVal.num 3⟩, ⟨JVal.str "a", JVal.num 5⟩]⟩)]⟩,
       [("v", JVal.num 3), ("id", JVal.num 1)],
       [("t", .tbl ⟨"t", 2, [("v", ⟨true, true, some [⟨JVal.num 1, JVal.num 3⟩, ⟨JVal.str "a", JVal.num 5⟩]⟩)]⟩),
        ("t|1", .item [("v", JVal.num 3), ("id", JVal.num 1)])])
      : LocalTableDef × Item × Storage).1.name ++ "|" ++ jsToString e.id)
        = some (.item ((⟨"t", 2, [("v", ⟨true, true, some [⟨JVal.num 1, JVal.num 3⟩, ⟨JVal.str "a", JVal.num 5⟩]⟩)]⟩,
       [("v", JVal.num 3), ("id", JVal.num 1)],
       [("t", .tbl ⟨"t", 2, [("v", ⟨true, true, some [⟨JVal.num 1, JVal.num 3⟩, ⟨JVal.str "a", JVal.num 5⟩]⟩)]⟩),
        ("t|1", .item [("v", JVal.num 3), ("id", JVal.num 1)])])
      : LocalTableDef × Item × Storage).2.1)) ∧
    storeGet (removeItem ((⟨"t", 2, [("v", ⟨true, true, some [⟨JVal.num 1, JVal.num 3⟩, ⟨JVal.str "a", JVal.num 5⟩]⟩)]⟩,
       [("v", JVal.num 3), ("id", JVal.num 1)],
       [("t", .tbl ⟨"t", 2, [("v", ⟨true, true, some [⟨JVal.num 1, JVal.num 3⟩, ⟨JVal.str "a", JVal.num 5⟩]⟩)]⟩),
        ("t|1", .item [("v", JVal.num 3), ("id", JVal.num 1)])])
      : LocalTableDef × Item × Storage).1 (intToString 1) ((⟨"t", 2, [("v", ⟨true, true, some [⟨JVal.num 1, JVal.num 3⟩, ⟨JVal.str "a", JVal.num 5⟩]⟩)]⟩,
       [("v", JVal.num 3), ("id", JVal.num 1)],
       [("t", .tbl ⟨"t", 2, [("v", ⟨true, true, some [⟨JVal.num 1, JVal.num 3⟩, ⟨JVal.str "a", JVal.num 5⟩]⟩)]⟩),
        ("t|1", .item [("v", JVal.num 3), ("id", JVal.num 1)])])
      : LocalTableDef × Item × Storage).2.2).2
      (((⟨"t", 2, [("v", ⟨true, true, some [⟨JVal.num 1, JVal.num 3⟩, ⟨JVal.str "a", JVal.num 5⟩]⟩)]⟩,
       [("v", JVal.num 3), ("id", JVal.num 1)],
       [("t", .tbl ⟨"t", 2, [("v", ⟨true, true, some [⟨JVal.num 1, JVal.num 3⟩, ⟨JVal.str "a", JVal.num 5⟩]⟩)]⟩),
        ("t|1", .item [("v", JVal.num 3), ("id", JVal.num 1)])])
      : LocalTableDef × Item × Storage).1.name ++ "|" ++ intToString 1) = none ∧
    ∀ p ∈ (removeItem ((⟨"t", 2, [("v", ⟨true, true, some [⟨JVal.num 1, JVal.num 3⟩, ⟨JVal.str "a", JVal.num 5⟩]⟩)]⟩,
       [("v", JVal.num 3), ("id", JVal.num 1)],
       [("t", .tbl ⟨"t", 2, [("v", ⟨true, true, some [⟨JVal.num 1, JVal.num 3⟩, ⟨JVal.str "a", JVal.num 5⟩]⟩)]⟩),
        ("t|1", .item [("v", JVal.num 3), ("id", JVal.num 1)])])
      : LocalTableDef × Item × Storage).1 (intToString 1) ((⟨"t", 2, [("v", ⟨true, true, some [⟨JVal.num 1, JVal.num 3⟩, ⟨JVal.str "a", JVal.num 5⟩]⟩)]⟩,
       [("v", JVal.num 3), ("id", JVal.num 1)],
       [("t", .tbl ⟨"t", 2, [("v", ⟨true, true, some [⟨JVal.num 1, JVal.num 3⟩, ⟨JVal.str "a", JVal.num 5⟩]⟩)]⟩),
        ("t|1", .item [("v", JVal.num 3), ("id", JVal.num 1)])])
      : LocalTableDef × Item × Storage).2.2).1.indexes,
      ∀ vs, p.2.values = some vs → ∀ e ∈ vs,
        looseEq e.id (.str (intToString 1)) = false) :=
  ⟨⟨rfl, by decide, by decide⟩,
    autoId_string_addressing ⟨"t", 1, [("v", ⟨true, true, some [⟨JVal.str "a", JVal.num 5⟩]⟩)]⟩
      [("v", JVal.num 3)] [] ((⟨"t", 2, [("v", ⟨true, true, some [⟨JVal.num 1, JVal.num 3⟩, ⟨JVal.str "a", JVal.num 5⟩]⟩)]⟩,
       [("v", JVal.num 3), ("id", JVal.num 1)],
       [("t", .tbl ⟨"t", 2, [("v", ⟨true, true, some [⟨JVal.num 1, JVal.num 3⟩, ⟨JVal.str "a", JVal.num 5⟩]⟩)]⟩),
        ("t|1", .item [("v", JVal.num 3), ("id", JVal.num 1)])])
      : LocalTableDef × Item × Storage) rfl (by decide) (by decide)⟩

/-! C2 — pagination completeness. -/

theorem fetchGo_spec (tname : String) (vs : List LocalIndexKey) :
    ∀ (c : Nat) (s : Nat), s ≤ vs.length →
      fetchGo tname vs c (s : Int)
        = some (((vs.drop s).take c).map (fun e => tname ++ "|" ++ jsToString e.id),
            ((s + min c (vs.length - s) : Nat) : Int)) := by
  intro c
  induction c with
  | zero =>
    intro s hs
    simp [fetchGo]
  | succ c ih =>
    intro s hs
    by_cases hlt : s < vs.length
    · have h1 : ((s : Int) < (vs.length : Int)) := by exact_mod_cast hlt
      have h2 : (0 : Int) ≤ (s : Int) := Int.natCast_nonneg s
      have h3 : ((s : Int)).toNat < vs.length := by
        rw [Int.toNat_natCast]
        exact hlt
      have hrec := ih (s + 1) (by omega)
      unfold fetchGo
      rw [if_pos h1, dif_pos ⟨h2, h3⟩,
        show ((s : Int) + 1) = (((s + 1 : Nat)) : Int) by push_cast; ring, hrec]
      simp only [List.get_eq_getElem, Int.toNat_natCast]
      rw [List.drop_eq_getElem_cons hlt]
      simp only [List.take_succ_cons, List.map_cons]
      congr 2
      omega
    · have h1 : ¬ ((s : Int) < (vs.length : Int)) := by
        push_cast
        omega
      have hs2 : s = vs.length := by omega
      unfold fetchGo
      rw [if_neg h1]
      subst hs2
      simp [List.drop_length]

theorem listItems_page (t : LocalTableDef) (indexName : String) (idx : LocalIndexDef)
    (vs : List LocalIndexKey) (count : Int) (st : Storage) (s : Nat)
    (hidx : lookupIdx t.indexes indexName = some idx)
    (hvs : idx.values = some vs)
    (hs : s < vs.length) :
    listItems t indexName count (some (intToString ((s : Nat) : Int))) st = .ok
      { items := ((vs.drop s).take count.toNat).map
          (fun e => storeGet st (t.name ++ "|" ++ jsToString e.id)),
        continuation := if s + count.toNat < vs.length
          then some (intToString ((s + count.toNat : Nat) : Int)) else none } := by
  have hse : ((s : Int) < (vs.length : Int)) := by exact_mod_cast hs
  have hfg := fetchGo_spec t.name vs count.toNat s (le_of_lt hs)
  have hmin : min count.toNat (vs.length - s) = if s + count.toNat < vs.length
      then count.toNat else vs.length - s := by
    split <;> omega
  have he : ((intToString ((s : Nat) : Int)) == "") = false :=
    beq_eq_false_iff_ne.mpr (intToString_ne_empty _)
  unfold listItems
  rw [hidx]
  simp only [hvs, he, Bool.false_eq_true, if_false, jsParseInt_intToString]
  rw [if_pos hse, hfg]
  simp only [List.map_map]
  by_cases hend : s + count.toNat < vs.length
  · have hlt2 : ((s + min count.toNat (vs.length - s) : Nat) : Int) < (vs.length : Int) := by
      rw [hmin, if_pos hend]
      exact_mod_cast hend
    rw [if_pos hlt2]
    have harg : ((s + min count.toNat (vs.length - s) : Nat) : Int)
        = ((s + count.toNat : Nat) : Int) := by
      rw [hmin, if_pos hend]
    rw [harg, if_pos hend]
    rfl
  · have hlt2 : ¬ (((s + min count.toNat (vs.length - s) : Nat) : Int) < (vs.length : Int)) := by
      rw [hmin, if_neg hend]
      push_cast
      omega
    rw [if_neg hlt2, if_neg hend]
    rfl

theorem listItems_none_eq_zero (t : LocalTableDef) (indexName : String) (count : Int)
    (st : Storage) :
    listItems t indexName count none st
      = listItems t indexName count (some (intToString ((0 : Nat) : Int))) st := by
  have he : ((intToString ((0 : Nat) : Int)) == "") = false :=
    beq_eq_false_iff_ne.mpr (intToString_ne_empty _)
  unfold listItems
  simp only [he, Bool.false_eq_true, if_false, jsParseInt_intToString]
  rfl

theorem paginate_none_eq (t : LocalTableDef) (indexName : String) (count : Int)
    (st : Storage) (fuel : Nat) :
    paginate t indexName count st fuel none
      = paginate t indexName count st fuel (some (intToString ((0 : Nat) : Int))) := by
  cases fuel with
  | zero => rfl
  | succ fuel =>
    unfold paginate
    rw [listItems_none_eq_zero]

theorem getLast?_cons_of_ne_nil {α : Type} (a : α) {l : List α} (h : l ≠ []) :
    (a :: l).getLast? = l.getLast? := by
  cases l with
  | nil => exact absurd rfl h
  | cons b l => exact List.getLast?_cons_cons

theorem paginate_spec (t : LocalTableDef) (indexName : String) (idx : LocalIndexDef)
    (vs : List LocalIndexKey) (count : Int) (st : Storage)
    (hidx : lookupIdx t.indexes indexName = some idx)
    (hvs : idx.values = some vs)
    (hcount : 1 ≤ count) :
    ∀ (fuel : Nat) (s : Nat),
      s < vs.length → vs.length ≤ s + fuel * count.toNat →
      ((paginate t indexName count st fuel
            (some (intToString ((s : Nat) : Int)))).map StorageResults.items).flatten
          = (vs.drop s).map (fun e => storeGet st (t.name ++ "|" ++ jsToString e.id)) ∧
        (paginate t indexName count st fuel
            (some (intToString ((s : Nat) : Int)))).length
          = (vs.length - s + count.toNat - 1) / count.toNat ∧
        ((paginate t indexName count st fuel
            (some (intToString ((s : Nat) : Int)))).map
              StorageResults.continuation).getLast? = some none := by
  intro fuel
  induction fuel with
  | zero =>
    intro s hlt hle
    simp only [Nat.zero_mul, Nat.add_zero] at hle
    omega
  | succ fuel ih =>
    intro s hlt hle
    have hc0 : 1 ≤ count.toNat := by omega
    have hpage := listItems_page t indexName idx vs count st s hidx hvs hlt
    by_cases hend : s + count.toNat < vs.length
    · have hrest := ih (s + count.toNat) hend (by rw [Nat.succ_mul] at hle; omega)
      have hpag : paginate t indexName count st (fuel + 1)
            (some (intToString ((s : Nat) : Int)))
          = (⟨((vs.drop s).take count.toNat).map
                (fun e => storeGet st (t.name ++ "|" ++ jsToString e.id)),
              some (intToString ((s + count.toNat : Nat) : Int))⟩ : StorageResults)
            :: paginate t indexName count st fuel
                (some (intToString ((s + count.toNat : Nat) : Int))) := by
        conv_lhs => rw [paginate]
        rw [hpage, if_pos hend]
      rw [hpag]
      refine ⟨?_, ?_, ?_⟩
      · simp only [List.map_cons, List.flatten_cons]
        rw [hrest.1, ← List.drop_drop, ← List.map_append, List.take_append_drop]
      · simp only [List.length_cons]
        rw [hrest.2.1]
        have hstep : vs.length - s + count.toNat - 1
            = (vs.length - (s + count.toNat) + count.toNat - 1) + count.toNat := by
          omega
        rw [hstep, Nat.add_div_right _ (by omega : 0 < count.toNat)]
      · simp only [List.map_cons]
        have hne : paginate t indexName count st fuel
            (some (intToString ((s + count.toNat : Nat) : Int))) ≠ [] := by
          intro hnil
          have hlen := hrest.2.1
          rw [hnil] at hlen
          simp only [List.length_nil] at hlen
          have h1 : 1 ≤ (vs.length - (s + count.toNat) + count.toNat - 1) / count.toNat :=
            (Nat.one_le_div_iff (by omega)).mpr (by omega)
          omega
        rw [getLast?_cons_of_ne_nil _ (fun hm => hne (List.map_eq_nil.mp hm))]
        exact hrest.2.2
    · have hpag : paginate t indexName count st (fuel + 1)
            (some (intToString ((s : Nat) : Int)))
          = [(⟨((vs.drop s).take count.toNat).map
                (fun e => storeGet st (t.name ++ "|" ++ jsToString e.id)),
              none⟩ : StorageResults)] := by
        conv_lhs => rw [paginate]
        rw [hpage, if_neg hend]
      rw [hpag]
      refine ⟨?_, ?_, rfl⟩
      · simp only [List.map_cons, List.map_nil, List.flatten_nil, List.flatten_cons]
        rw [List.take_of_length_le (by rw [List.length_drop]; omega)]
        simp
      · simp only [List.length_singleton]
        symm
        exact Nat.div_eq_of_lt_le (by omega) (by omega)

/-- C2: for a table holding M ≥ 1 items under a defined index and a fixed
positive page size, calling `listItems` repeatedly starting from no
continuation and threading each returned token into the next call (no
intervening writes) yields exactly the index-ordered item fetches
partitioned into ceil(M/count) pages — no duplicates, no omissions — and
the final page carries no continuation token. -/
theorem pagination_completeness (t : LocalTableDef) (indexName : String)
    (idx : LocalIndexDef) (vs : List LocalIndexKey) (count : Int) (st : Storage)
    (hidx : lookupIdx t.indexes indexName = some idx)
    (hvs : idx.values = some vs)
    (hM : 1 ≤ vs.length)
    (hcount : 1 ≤ count) :
    ((paginate t indexName count st vs.length none).map StorageResults.items).flatten
        = vs.map (fun e => storeGet st (t.name ++ "|" ++ jsToString e.id)) ∧
      (paginate t indexName count st vs.length none).length
        = (vs.length + count.toNat - 1) / count.toNat ∧
      ((paginate t indexName count st vs.length none).map
          StorageResults.continuation).getLast? = some none := by
  have hc0 : 1 ≤ count.toNat := by omega
  have h := paginate_spec t indexName idx vs count st hidx hvs hcount vs.length 0
    (by omega)
    (by
      calc vs.length ≤ vs.length * count.toNat := Nat.le_mul_of_pos_right _ (by omega)
        _ = 0 + vs.length * count.toNat := by omega)
  rw [paginate_none_eq]
  refine ⟨?_, ?_, h.2.2⟩
  · rw [h.1, List.drop_zero]
  · rw [h.2.1]
    congr 1

/-- Witness for C2: three items under a concrete numerical index, page size
two — two pages, the last without continuation. -/
theorem pagination_completeness_witness :
    (lookupIdx [("v", (⟨true, true, some [⟨JVal.num 1, JVal.num 10⟩, ⟨JVal.num 2, JVal.num 20⟩, ⟨JVal.num 3, JVal.num 30⟩]⟩ : LocalIndexDef))] "v" = some ⟨true, true, some [⟨JVal.num 1, JVal.num 10⟩, ⟨JVal.num 2, JVal.num 20⟩, ⟨JVal.num 3, JVal.num 30⟩]⟩ ∧
      1 ≤ [(⟨JVal.num 1, JVal.num 10⟩ : LocalIndexKey), ⟨JVal.num 2, JVal.num 20⟩, ⟨JVal.num 3, JVal.num 30⟩].length ∧
      (1 : Int) ≤ 2) ∧
    (((paginate ⟨"t", 4, [("v", ⟨true, true, some [⟨JVal.num 1, JVal.num 10⟩, ⟨JVal.num 2, JVal.num 20⟩, ⟨JVal.num 3, JVal.num 30⟩]⟩)]⟩ "v" 2 [] [(⟨JVal.num 1, JVal.num 10⟩ : LocalIndexKey), ⟨JVal.num 2, JVal.num 20⟩, ⟨JVal.num 3, JVal.num 30⟩].length none).map StorageResults.items).flatten
        = [(⟨JVal.num 1, JVal.num 10⟩ : LocalIndexKey), ⟨JVal.num 2, JVal.num 20⟩, ⟨JVal.num 3, JVal.num 30⟩].map (fun e => storeGet [] ((⟨"t", 4, [("v", ⟨true, true, some [⟨JVal.num 1, JVal.num 10⟩, ⟨JVal.num 2, JVal.num 20⟩, ⟨JVal.num 3, JVal.num 30⟩]⟩)]⟩ : LocalTableDef).name ++ "|" ++ jsToString e.id)) ∧
      (paginate ⟨"t", 4, [("v", ⟨true, true, some [⟨JVal.num 1, JVal.num 10⟩, ⟨JVal.num 2, JVal.num 20⟩, ⟨JVal.num 3, JVal.num 30⟩]⟩)]⟩ "v" 2 [] [(⟨JVal.num 1, JVal.num 10⟩ : LocalIndexKey), ⟨JVal.num 2, JVal.num 20⟩, ⟨JVal.num 3, JVal.num 30⟩].length none).length
        = ([(⟨JVal.num 1, JVal.num 10⟩ : LocalIndexKey), ⟨JVal.num 2, JVal.num 20⟩, ⟨JVal.num 3, JVal.num 30⟩].length + (2 : Int).toNat - 1) / (2 : Int).toNat ∧
      ((paginate ⟨"t", 4, [("v", ⟨true, true, some [⟨JVal.num 1, JVal.num 10⟩, ⟨JVal.num 2, JVal.num 20⟩, ⟨JVal.num 3, JVal.num 30⟩]⟩)]⟩ "v" 2 [] [(⟨JVal.num 1, JVal.num 10⟩ : LocalIndexKey), ⟨JVal.num 2, JVal.num 20⟩, ⟨JVal.num 3, JVal.num 30⟩].length none).map StorageResults.continuation).getLast? = some none) :=
  ⟨⟨by decide, by decide, by decide⟩,
    pagination_completeness ⟨"t", 4, [("v", ⟨true, true, some [⟨JVal.num 1, JVal.num 10⟩, ⟨JVal.num 2, JVal.num 20⟩, ⟨JVal.num 3, JVal.num 30⟩]⟩)]⟩ "v"
      ⟨true, true, some [⟨JVal.num 1, JVal.num 10⟩, ⟨JVal.num 2, JVal.num 20⟩, ⟨JVal.num 3, JVal.num 30⟩]⟩
      [⟨JVal.num 1, JVal.num 10⟩, ⟨JVal.num 2, JVal.num 20⟩, ⟨JVal.num 3, JVal.num 30⟩] 2 []
      (by decide) rfl (by decide) (by decide)⟩

/-! C1 — the index ordering invariant.  First, how the primitive writes
move the live-id set. -/

theorem isLive_storeSet_item (tname : String) (st : Storage) (idS : String)
    (it : Item) (s : String) :
    isLive tname (storeSet st (tname ++ "|" ++ idS) (.item it)) s = true
      ↔ (s = idS ∨ isLive tname st s = true) := by
  unfold isLive
  rw [storeGet_storeSet]
  by_cases hs : s = idS
  · subst hs
    simp
  · rw [if_neg (fun hk => hs (itemKey_inj.mp hk))]
    simp [hs]

theorem isLive_storeSet_tbl (tname : String) (st : Storage) (x : Stored) (s : String) :
    isLive tname (storeSet st tname x) s = isLive tname st s := by
  unfold isLive
  rw [storeGet_storeSet, if_neg (itemKey_ne_name tname s)]

theorem isLive_storeRemove_item (tname : String) (st : Storage) (idS : String) (s : String) :
    isLive tname (storeRemove st (tname ++ "|" ++ idS)) s = true
      ↔ (s ≠ idS ∧ isLive tname st s = true) := by
  unfold isLive
  rw [storeGet_storeRemove]
  by_cases hs : s = idS
  · subst hs
    simp
  · rw [if_neg (fun hk => hs (itemKey_inj.mp hk))]
    simp [hs]

theorem IndexInv_of_live_eq (tname : String) (st1 st2 : Storage) (idx : LocalIndexDef)
    (h : ∀ s, isLive tname st2 s = isLive tname st1 s) :
    IndexInv tname st1 idx → IndexInv tname st2 idx := by
  intro ⟨⟨hsort, hnodup, hiff⟩, hgood⟩
  exact ⟨⟨hsort, hnodup, fun s => (h s) ▸ hiff s⟩, hgood⟩

/-! Behaviour of the `updateTableIndexes` scan. -/

theorem updEntries_ids (id value : JVal) (vs : List LocalIndexKey) :
    ((updEntries id value vs).1).map LocalIndexKey.id = vs.map LocalIndexKey.id := by
  induction vs with
  | nil => rfl
  | cons e rest ih =>
    by_cases he : looseEq e.id id = true
    · by_cases hv : (e.value == value) = true
      · simp [updEntries, he, hv]
      · have hv' : (e.value == value) = false := by simpa using hv
        simp [updEntries, he, hv']
    · have he' : looseEq e.id id = false := by simpa using he
      simp only [updEntries, he', Bool.false_eq_true, if_false, List.map_cons]
      rw [ih]

theorem updEntries_found (id value : JVal) (vs : List LocalIndexKey) :
    (updEntries id value vs).2.1 = vs.any (fun e => looseEq e.id id) := by
  induction vs with
  | nil => rfl
  | cons e rest ih =>
    by_cases he : looseEq e.id id = true
    · by_cases hv : (e.value == value) = true
      · simp [updEntries, he, hv]
      · have hv' : (e.value == value) = false := by simpa using hv
        simp [updEntries, he, hv']
    · have he' : looseEq e.id id = false := by simpa using he
      simp only [updEntries, he', Bool.false_eq_true, if_false, List.any_cons,
        Bool.false_or]
      exact ih

theorem updEntries_not_found (id value : JVal) (vs : List LocalIndexKey)
    (h : (updEntries id value vs).2.1 = false) :
    (updEntries id value vs).1 = vs ∧ (updEntries id value vs).2.2 = false := by
  induction vs with
  | nil => exact ⟨rfl, rfl⟩
  | cons e rest ih =>
    by_cases he : looseEq e.id id = true
    · by_cases hv : (e.value == value) = true
      · simp [updEntries, he, hv] at h
      · have hv' : (e.value == value) = false := by simpa using hv
        simp [updEntries, he, hv'] at h
    · have he' : looseEq e.id id = false := by simpa using he
      simp only [updEntries, he', Bool.false_eq_true, if_false] at h ⊢
      have := ih h
      rw [this.1]
      exact ⟨rfl, this.2⟩

theorem updEntries_unchanged (id value : JVal) (vs : List LocalIndexKey)
    (h : (updEntries id value vs).2.2 = false) :
    (updEntries id value vs).1 = vs := by
  induction vs with
  | nil => rfl
  | cons e rest ih =>
    by_cases he : looseEq e.id id = true
    · by_cases hv : (e.value == value) = true
      · simp [updEntries, he, hv]
      · have hv' : (e.value == value) = false := by simpa using hv
        simp [updEntries, he, hv'] at h
    · have he' : looseEq e.id id = false := by simpa using he
      simp only [updEntries, he', Bool.false_eq_true, if_false] at h ⊢
      rw [ih h]

theorem sortValues_singleton (numerical ascending : Bool) (e : LocalIndexKey) :
    sortValues numerical ascending [e] = [e] := rfl

theorem entryIds_perm {l1 l2 : List LocalIndexKey} (h : l1.Perm l2) :
    (entryIds l1).Perm (entryIds l2) := h.map _

theorem entryIds_eq_of_ids_eq {l1 l2 : List LocalIndexKey}
    (h : l1.map LocalIndexKey.id = l2.map LocalIndexKey.id) :
    entryIds l1 = entryIds l2 := by
  unfold entryIds
  have h1 : l1.map (fun e => jsToString e.id)
      = (l1.map LocalIndexKey.id).map jsToString := by rw [List.map_map]; rfl
  have h2 : l2.map (fun e => jsToString e.id)
      = (l2.map LocalIndexKey.id).map jsToString := by rw [List.map_map]; rfl
  rw [h1, h2, h]

theorem goodIds_of_ids_eq {l1 l2 : List LocalIndexKey}
    (h : l1.map LocalIndexKey.id = l2.map LocalIndexKey.id)
    (hg : ∀ e ∈ l2, goodIdb e.id = true) :
    ∀ e ∈ l1, goodIdb e.id = true := by
  intro e he
  have : e.id ∈ l1.map LocalIndexKey.id := List.mem_map.mpr ⟨e, he, rfl⟩
  rw [h] at this
  rcases List.mem_map.mp this with ⟨e2, he2, hid⟩
  rw [← hid]
  exact hg e2 he2

/-! Reductions of `updateIndexOk` on an existing `values` array, by the flags
of the scan. -/

theorem updateIndexOk_red_found_changed (asc num : Bool) (vs : List LocalIndexKey)
    (id raw : JVal)
    (hf : (updEntries id (updVal num raw) vs).2.1 = true)
    (hc : (updEntries id (updVal num raw) vs).2.2 = true) :
    (updateIndexOk ⟨asc, num, some vs⟩ id raw).1
      = ⟨asc, num, some (sortValues num asc (updEntries id (updVal num raw) vs).1)⟩ := by
  unfold updateIndexOk
  simp only []
  rw [hf, hc]
  rfl

theorem updateIndexOk_red_found_unchanged (asc num : Bool) (vs : List LocalIndexKey)
    (id raw : JVal)
    (hf : (updEntries id (updVal num raw) vs).2.1 = true)
    (hc : (updEntries id (updVal num raw) vs).2.2 = false) :
    (updateIndexOk ⟨asc, num, some vs⟩ id raw).1
      = ⟨asc, num, some (updEntries id (updVal num raw) vs).1⟩ := by
  unfold updateIndexOk
  simp only []
  rw [hf, hc]
  rfl

theorem updateIndexOk_red_new (asc num : Bool) (vs : List LocalIndexKey)
    (id raw : JVal)
    (hf : (updEntries id (updVal num raw) vs).2.1 = false) :
    (updateIndexOk ⟨asc, num, some vs⟩ id raw).1
      = ⟨asc, num, some (sortValues num asc
          ((updEntries id (updVal num raw) vs).1 ++ [⟨id, updVal num raw⟩]))⟩ := by
  unfold updateIndexOk
  simp only []
  rw [hf]
  rfl

/-- The heart of the C1 induction: updating one index for an item with a
canonical id, while the item is written under the key built from that id,
preserves the index invariant. -/
theorem updateIndex_preserves (tname : String) (st : Storage) (idx : LocalIndexDef)
    (id raw : JVal) (it : Item)
    (hgood : goodIdb id = true)
    (hinv : IndexInv tname st idx) :
    IndexInv tname (storeSet st (tname ++ "|" ++ jsToString id) (.item it))
      (updateIndexOk idx id raw).1 := by
  obtain ⟨⟨hsort, hnodup, hiff⟩, hgoods⟩ := hinv
  rcases idx with ⟨asc, num, v⟩
  rcases v with _ | vs
  · have hred : (updateIndexOk ⟨asc, num, none⟩ id raw).1
        = ⟨asc, num, some [⟨id, updVal num raw⟩]⟩ := rfl
    rw [hred]
    refine ⟨⟨List.sorted_singleton _, by simp [entryIds], ?_⟩, ?_⟩
    · intro s
      rw [isLive_storeSet_item]
      have h0 := hiff s
      simp only [entryIds, Option.getD_none, List.map_nil, List.not_mem_nil, iff_false,
        Bool.not_eq_true] at h0
      simp [entryIds, h0]
    · intro e he
      simp only [Option.getD_some, List.mem_singleton] at he
      subst he
      exact hgood
  · have hids := updEntries_ids id (updVal num raw) vs
    have hgoods' : ∀ e ∈ (updEntries id (updVal num raw) vs).1, goodIdb e.id = true :=
      goodIds_of_ids_eq hids hgoods
    have hiff' : ∀ s : String, isLive tname st s = true ↔ s ∈ entryIds vs := hiff
    have hnodup' : (entryIds vs).Nodup := hnodup
    have hsort' : List.Sorted (entryLE num asc) vs := hsort
    by_cases hf : (updEntries id (updVal num raw) vs).2.1 = true
    · have hmem : jsToString id ∈ entryIds vs := by
        rw [updEntries_found] at hf
        rcases List.any_eq_true.mp hf with ⟨e, he, hle⟩
        have := (looseEq_iff_render (hgoods e he) hgood).mp hle
        exact List.mem_map.mpr ⟨e, he, this⟩
      by_cases hc : (updEntries id (updVal num raw) vs).2.2 = true
      · rw [updateIndexOk_red_found_changed asc num vs id raw hf hc]
        have hperm : (sortValues num asc (updEntries id (updVal num raw) vs).1).Perm
            (updEntries id (updVal num raw) vs).1 := sortValues_perm _ _ _
        have hpids : (entryIds (sortValues num asc (updEntries id (updVal num raw) vs).1)).Perm
            (entryIds vs) := by
          rw [← entryIds_eq_of_ids_eq hids]
          exact entryIds_perm hperm
        refine ⟨⟨sortValues_sorted _ _ _, hpids.nodup_iff.mpr hnodup', ?_⟩, ?_⟩
        · intro s
          simp only [Option.getD_some]
          rw [isLive_storeSet_item, hpids.mem_iff]
          constructor
          · rintro (rfl | hs)
            · exact hmem
            · exact (hiff' s).mp hs
          · intro hs
            exact Or.inr ((hiff' s).mpr hs)
        · intro e he
          simp only [Option.getD_some] at he
          exact hgoods' e (hperm.mem_iff.mp he)
      · have hc' : (updEntries id (updVal num raw) vs).2.2 = false := by simpa using hc
        rw [updateIndexOk_red_found_unchanged asc num vs id raw hf hc',
          updEntries_unchanged _ _ _ hc']
        refine ⟨⟨hsort', hnodup', ?_⟩, hgoods⟩
        intro s
        rw [isLive_storeSet_item]
        constructor
        · rintro (rfl | hs)
          · exact hmem
          · exact (hiff' s).mp hs
        · intro hs
          exact Or.inr ((hiff' s).mpr hs)
    · have hf' : (updEntries id (updVal num raw) vs).2.1 = false := by simpa using hf
      obtain ⟨hupd1, -⟩ := updEntries_not_found id (updVal num raw) vs hf'
      have hnotmem : jsToString id ∉ entryIds vs := by
        intro hmem
        rcases List.mem_map.mp hmem with ⟨e, he, hse⟩
        have : looseEq e.id id = true := (looseEq_iff_render (hgoods e he) hgood).mpr hse
        have : vs.any (fun e => looseEq e.id id) = true :=
          List.any_eq_true.mpr ⟨e, he, this⟩
        rw [← updEntries_found id (updVal num raw) vs] at this
        rw [hf'] at this
        exact Bool.noConfusion this
      rw [updateIndexOk_red_new asc num vs id raw hf', hupd1]
      have hperm : (sortValues num asc (vs ++ [⟨id, updVal num raw⟩])).Perm
          (vs ++ [⟨id, updVal num raw⟩]) := sortValues_perm _ _ _
      have hpids : (entryIds (sortValues num asc (vs ++ [⟨id, updVal num raw⟩]))).Perm
          (entryIds vs ++ [jsToString id]) := by
        have : entryIds (vs ++ [⟨id, updVal num raw⟩])
            = entryIds vs ++ [jsToString id] := by
          simp [entryIds]
        rw [← this]
        exact entryIds_perm hperm
      have hpids2 : (entryIds vs ++ [jsToString id]).Perm (jsToString id :: entryIds vs) :=
        List.perm_append_singleton _ _
      refine ⟨⟨sortValues_sorted _ _ _, ?_, ?_⟩, ?_⟩
      · simp only [Option.getD_some]
        rw [hpids.nodup_iff, hpids2.nodup_iff, List.nodup_cons]
        exact ⟨hnotmem, hnodup'⟩
      · intro s
        simp only [Option.getD_some]
        rw [isLive_storeSet_item, hpids.mem_iff, hpids2.mem_iff, List.mem_cons]
        constructor
        · rintro (rfl | hs)
          · exact Or.inl rfl
          · exact Or.inr ((hiff' s).mp hs)
        · rintro (rfl | hs)
          · exact Or.inl rfl
          · exact Or.inr ((hiff' s).mpr hs)
      · intro e he
        simp only [Option.getD_some] at he
        have := hperm.mem_iff.mp he
        rcases List.mem_append.mp this with hv | hnew
        · exact hgoods e hv
        · rw [List.mem_singleton.mp hnew]
          exact hgood

/-! Lifting the per-index preservation through `setItem`. -/

theorem isLive_setItem (t : LocalTableDef) (item0 : Item) (st : Storage)
    (r : LocalTableDef × Item × Storage) (hok : setItem t item0 st = .ok r) (s : String) :
    isLive t.name r.2.2 s
      = isLive t.name
          (storeSet st (t.name ++ "|" ++ jsToString (itemGet r.2.1 "id"))
            (.item r.2.1)) s := by
  obtain ⟨u, -, -, -, hst⟩ := setItem_ok_shape t item0 st r hok
  rw [hst]
  split
  · exact isLive_storeSet_tbl _ _ _ _
  · rfl

theorem setItem_id_good (t : LocalTableDef) (item0 : Item) (st : Storage)
    (r : LocalTableDef × Item × Storage) (hok : setItem t item0 st = .ok r)
    (h : falsy (itemGet item0 "id") = true ∨ goodIdb (itemGet item0 "id") = true) :
    goodIdb (itemGet r.2.1 "id") = true := by
  by_cases hf : falsy (itemGet item0 "id") = true
  · rw [setItem_assigned_id t item0 st r hok hf]
    rfl
  · rw [setItem_item_of_not_falsy t item0 st r hok hf]
    rcases h with h | h
    · exact absurd h hf
    · exact h

theorem setItem_preserves (t : LocalTableDef) (item0 : Item) (st : Storage)
    (r : LocalTableDef × Item × Storage) (hok : setItem t item0 st = .ok r)
    (hgood : falsy (itemGet item0 "id") = true ∨ goodIdb (itemGet item0 "id") = true)
    (hinv : TableInv t st) :
    TableInv r.1 r.2.2 := by
  intro p hp
  rw [setItem_name t item0 st r hok]
  refine IndexInv_of_live_eq _ _ _ _ (fun s => isLive_setItem t item0 st r hok s) ?_
  obtain ⟨q, hq, hq1⟩ := setItem_indexes t item0 st r hok
  rw [hq1] at hp
  obtain ⟨x, hx, rr, hrr, rfl⟩ := updateIndexesGo_ok_mem _ _ _ hq p hp
  rw [show ((x.1, rr.1) : String × LocalIndexDef).2 = rr.1 from rfl,
    updateIndex_ok_eq x.2 _ _ rr hrr]
  exact updateIndex_preserves t.name st x.2 _ _ r.2.1
    (setItem_id_good t item0 st r hok hgood) (hinv x hx)

/-! Lifting the per-index preservation through `removeItem`. -/

theorem isLive_removeItem (t : LocalTableDef) (id : String) (st : Storage) (s : String) :
    isLive t.name (removeItem t id st).2 s = true
      ↔ (s ≠ id ∧ isLive t.name st s = true) := by
  unfold removeItem
  simp only []
  split
  · refine Iff.trans (isLive_storeRemove_item t.name _ id s) ?_
    rw [isLive_storeSet_tbl]
  · exact isLive_storeRemove_item t.name st id s

theorem filter_length_le_one_of_nodup_map {α β : Type} (f : α → β) (l : List α)
    (p : α → Bool) (b : β)
    (h : (l.map f).Nodup)
    (hp : ∀ a ∈ l, p a = true ↔ f a = b) :
    (l.filter p).length ≤ 1 := by
  induction l with
  | nil => simp
  | cons a l ih =>
    rw [List.map_cons, List.nodup_cons] at h
    by_cases hpa : p a = true
    · rw [List.filter_cons_of_pos hpa, List.length_cons]
      have hfa : f a = b := (hp a (List.mem_cons_self a l)).mp hpa
      have hnil : l.filter p = [] := by
        refine List.filter_eq_nil.mpr ?_
        intro x hx hpx
        have hfx : f x = b := (hp x (List.mem_cons_of_mem a hx)).mp hpx
        refine h.1 ?_
        rw [hfa.trans hfx.symm]
        exact List.mem_map_of_mem f hx
      rw [hnil]
      simp
    · rw [List.filter_cons_of_neg hpa]
      exact ih h.2 (fun x hx => hp x (List.mem_cons_of_mem a hx))

theorem removeIdxGo_eq_map_one (id : String) (idxs : List (String × LocalIndexDef)) :
    (removeIdxGo id idxs).1 = idxs.map (fun p => (p.1, (removeIdxOne id p.2).1)) := by
  induction idxs with
  | nil => rfl
  | cons p rest ih =>
    rcases p with ⟨nm, idx⟩
    show (nm, (removeIdxOne id idx).1) :: (removeIdxGo id rest).1 = _
    rw [ih]
    rfl

theorem removeIdx_preserves (tname : String) (st st2 : Storage) (id : String)
    (idx : LocalIndexDef)
    (hgood : goodIdb (.str id) = true)
    (hinv : IndexInv tname st idx)
    (hlive : ∀ s, isLive tname st2 s = true ↔ (s ≠ id ∧ isLive tname st s = true)) :
    IndexInv tname st2 (removeIdxOne id idx).1 := by
  obtain ⟨⟨hsort, hnodup, hiff⟩, hgoods⟩ := hinv
  rcases idx with ⟨asc, num, v⟩
  rcases v with _ | vs
  · refine ⟨⟨List.sorted_nil, List.nodup_nil, ?_⟩, ?_⟩
    · intro s
      constructor
      · intro hs
        exact absurd ((hiff s).mp ((hlive s).mp hs).2) (List.not_mem_nil s)
      · intro hs
        exact absurd hs (List.not_mem_nil s)
    · intro e he
      exact absurd he (List.not_mem_nil e)
  · have hcoh : ∀ e ∈ vs, looseEq e.id (.str id) = true ↔ jsToString e.id = id := by
      intro e he
      exact looseEq_iff_render (hgoods e he) hgood
    have hlen : (vs.filter (fun e => looseEq e.id (.str id))).length ≤ 1 :=
      filter_length_le_one_of_nodup_map (fun e : LocalIndexKey => jsToString e.id) vs
        (fun e : LocalIndexKey => looseEq e.id (.str id)) id hnodup hcoh
    have hrm : (removeOnce id vs).1 = vs.filter (fun e => !(looseEq e.id (.str id))) :=
      removeOnce_eq_filter id vs hlen
    have hred : (removeIdxOne id ⟨asc, num, some vs⟩).1
        = ⟨asc, num, some (vs.filter (fun e => !(looseEq e.id (.str id))))⟩ := by
      show (⟨asc, num, some (removeOnce id vs).1⟩ : LocalIndexDef) = _
      rw [hrm]
    rw [hred]
    refine ⟨⟨?_, ?_, ?_⟩, ?_⟩
    · exact List.Pairwise.sublist (List.filter_sublist vs) hsort
    · exact List.Nodup.sublist (List.Sublist.map _ (List.filter_sublist vs)) hnodup
    · intro s
      simp only [Option.getD_some]
      constructor
      · intro hs
        obtain ⟨hne, hl⟩ := (hlive s).mp hs
        obtain ⟨e, he, hfe⟩ := List.mem_map.mp ((hiff s).mp hl)
        refine List.mem_map.mpr ⟨e, List.mem_filter.mpr ⟨he, ?_⟩, hfe⟩
        cases hle : looseEq e.id (.str id) with
        | false => rfl
        | true => exact absurd (hfe.symm.trans ((hcoh e he).mp hle)) hne
      · intro hs
        obtain ⟨e, he, hfe⟩ := List.mem_map.mp hs
        obtain ⟨hev, hpe⟩ := List.mem_filter.mp he
        have hle : looseEq e.id (.str id) = false := by simpa using hpe
        have hneq : jsToString e.id ≠ id := by
          intro hh
          have h1 := (hcoh e hev).mpr hh
          rw [hle] at h1
          exact Bool.false_ne_true h1
        refine (hlive s).mpr ⟨fun hsid => hneq (hfe.trans hsid), ?_⟩
        exact (hiff s).mpr (List.mem_map.mpr ⟨e, hev, hfe⟩)
    · intro e he
      simp only [Option.getD_some] at he
      exact hgoods e (List.mem_filter.mp he).1

theorem removeItem_preserves (t : LocalTableDef) (id : String) (st : Storage)
    (hgood : goodIdb (.str id) = true)
    (hinv : TableInv t st) :
    TableInv (removeItem t id st).1 (removeItem t id st).2 := by
  intro p hp
  rw [removeItem_name]
  rw [removeItem_indexes, removeIdxGo_eq_map_one] at hp
  rcases List.mem_map.mp hp with ⟨q, hq, rfl⟩
  exact removeIdx_preserves t.name st (removeItem t id st).2 id q.2 hgood (hinv q hq)
    (fun s => isLive_removeItem t id st s)

/-! The induction over an operation sequence and the initial state. -/

theorem runOps_preserves (ops : List Op) :
    ∀ (t : LocalTableDef) (st : Storage) (w : LocalTableDef × Storage),
      runOps t st ops = .ok w →
      (∀ op ∈ ops, GoodOp op) → TableInv t st → TableInv w.1 w.2 := by
  induction ops with
  | nil =>
    intro t st w h _ hinv
    rw [runOps, Except.ok.injEq] at h
    subst h
    exact hinv
  | cons op rest ih =>
    intro t st w h hgood hinv
    rw [runOps] at h
    rcases happ : applyOp (t, st) op with e | s
    · rw [happ] at h
      exact Except.noConfusion h
    · rw [happ] at h
      have h1 : TableInv s.1 s.2 := by
        rcases op with item | id
        · rcases hset : setItem t item st with e2 | r
          · have happ2 : (Except.error e2
                : Except String (LocalTableDef × Storage)) = Except.ok s := by
              rw [← happ, applyOp, hset]
            exact Except.noConfusion happ2
          · have happ2 : (Except.ok (r.1, r.2.2)
                : Except String (LocalTableDef × Storage)) = Except.ok s := by
              rw [← happ, applyOp, hset]
            rw [Except.ok.injEq] at happ2
            rw [← happ2]
            exact setItem_preserves t item st r hset (hgood _ (List.mem_cons_self _ _)) hinv
        · have happ2 : (Except.ok (removeItem t id st)
              : Except String (LocalTableDef × Storage)) = Except.ok s := happ
          rw [Except.ok.injEq] at happ2
          rw [← happ2]
          exact removeItem_preserves t id st (hgood _ (List.mem_cons_self _ _)) hinv
      exact ih s.1 s.2 w h (fun o ho => hgood o (List.mem_cons_of_mem _ ho)) h1

theorem TableInv_init (t : LocalTableDef) (st : Storage)
    (hvals : ∀ p ∈ t.indexes, p.2.values = none)
    (hlive : ∀ s, isLive t.name st s = false) :
    TableInv t st := by
  intro p hp
  refine ⟨⟨?_, ?_, ?_⟩, ?_⟩
  · rw [hvals p hp]
    exact List.sorted_nil
  · rw [hvals p hp]
    exact List.nodup_nil
  · intro s
    rw [hvals p hp]
    constructor
    · intro hs
      rw [hlive s] at hs
      exact absurd hs Bool.false_ne_true
    · intro hs
      exact absurd hs (List.not_mem_nil s)
  · intro e he
    rw [hvals p hp] at he
    exact absurd he (List.not_mem_nil e)

/-- C1 (counterexample to the claim as stated): starting from a fresh table
(`nextId = 1`, numerical index `"v"` with no `values`, empty storage), the
two calls `setItem` with caller id the non-canonical numeral string `"01"`
and `setItem` with no id (auto-assigned the number `1`) both complete, and
leave two live items, stored under keys `t|01` and `t|1`, while the index
holds the single entry `"01"`: the auto-assigned id collides with `"01"`
under JS loose equality, so its index entry is treated as an update of the
existing one.  The index therefore misses the live id `"1"`, refuting the
exactly-one-entry-per-live-id property. -/
theorem index_ordering_invariant_counterexample :
    runOps ⟨"t", 1, [("v", ⟨true, true, none⟩)]⟩ []
        [.set [("id", .str "01"), ("v", .num 7)], .set [("v", .num 8)]]
      = .ok (⟨"t", 2, [("v", ⟨true, true, some [⟨.str "01", .num 8⟩]⟩)]⟩,
          [("t", .tbl ⟨"t", 2, [("v", ⟨true, true, some [⟨.str "01", .num 8⟩]⟩)]⟩),
           ("t|1", .item [("v", JVal.num 8), ("id", JVal.num 1)]),
           ("t|01", .item [("id", JVal.str "01"), ("v", JVal.num 7)])]) ∧
    ¬ TableClaimOK ⟨"t", 2, [("v", ⟨true, true, some [⟨.str "01", .num 8⟩]⟩)]⟩
        [("t", .tbl ⟨"t", 2, [("v", ⟨true, true, some [⟨.str "01", .num 8⟩]⟩)]⟩),
         ("t|1", .item [("v", JVal.num 8), ("id", JVal.num 1)]),
         ("t|01", .item [("id", JVal.str "01"), ("v", JVal.num 7)])] := by
  refine ⟨rfl, ?_⟩
  intro h
  have h2 := (h ("v", (⟨true, true, some [⟨.str "01", .num 8⟩]⟩ : LocalIndexDef))
    (List.mem_cons_self _ _)).2.2 "1"
  exact absurd (h2.mp (by decide)) (by decide)

/-- C1: after any sequence of `setItem`/`removeItem` calls against a freshly
defined table, every call completing, every index's `values` is sorted
consistently with its `(numerical, ascending)` policy and holds exactly one
entry per currently-live item id and none for any other id — provided every
caller-supplied id is loose-equality-canonical (its `==`-class is determined
by its string rendering; auto-assigned numeric ids always are).  Without the
canonicity proviso the claim fails, see the counterexample: a non-canonical
numeral id such as `"01"` collides with a distinct auto-assigned id under
the loose equality used by the index scan, while the two items live under
distinct storage keys.  The completion proviso matters too: a `setItem`
rejected by the string-index comparator TypeError stores nothing while the
real program's in-memory index may keep the entry it pushed. -/
theorem index_ordering_invariant (t : LocalTableDef) (st : Storage) (ops : List Op)
    (w : LocalTableDef × Storage)
    (hvals : ∀ p ∈ t.indexes, p.2.values = none)
    (hlive : ∀ s, isLive t.name st s = false)
    (hgood : ∀ op ∈ ops, GoodOp op)
    (hrun : runOps t st ops = .ok w) :
    TableClaimOK w.1 w.2 :=
  fun p hp => (runOps_preserves ops t st w hrun hgood (TableInv_init t st hvals hlive) p hp).1

/-- C1 witness: the amended invariant at a concrete completed run — a fresh
table with a numerical ascending index, one auto-assigned item, one item
with canonical caller id `"9"`, then removal of id `"1"`. -/
theorem index_ordering_invariant_witness :
    TableClaimOK (⟨"t", 2, [("v", ⟨true, true, some [⟨JVal.str "9", JVal.num 3⟩]⟩)]⟩
        : LocalTableDef)
      [("t", .tbl ⟨"t", 2, [("v", ⟨true, true, some [⟨JVal.str "9", JVal.num 3⟩]⟩)]⟩),
       ("t|9", .item [("id", JVal.str "9"), ("v", JVal.num 3)])] :=
  index_ordering_invariant ⟨"t", 1, [("v", ⟨true, true, none⟩)]⟩ []
    [.set [("v", .num 7)], .set [("id", .str "9"), ("v", .num 3)], .remove "1"]
    (⟨"t", 2, [("v", ⟨true, true, some [⟨JVal.str "9", JVal.num 3⟩]⟩)]⟩,
      [("t", .tbl ⟨"t", 2, [("v", ⟨true, true, some [⟨JVal.str "9", JVal.num 3⟩]⟩)]⟩),
       ("t|9", .item [("id", JVal.str "9"), ("v", JVal.num 3)])])
    (by decide) (fun s => rfl)
    (by
      intro op ho
      simp only [List.mem_cons, List.mem_singleton] at ho
      rcases ho with rfl | rfl | rfl | h
      · exact Or.inl rfl
      · exact Or.inr rfl
      · exact rfl
      · exact absurd h (List.not_mem_nil _))
    rfl

end Virality
